import Mathlib

/-!
# go-ssh-copy-id: the key installer and the worker-pool scheduler

A shallow embedding of `src/main.go`.

* `copyKeyToHost` (main.go 144-204) is embedded as a total function over an
  explicit remote state (`Remote`: the `.ssh` directory and the
  `authorized_keys` file of one account) and a scripted remote capability
  (`Backend`: for each SSH/SFTP operation, whether it succeeds or with which
  error it fails).  It returns the Go `error` value, the remote state it leaves
  behind and the sequence of remote calls it issued.  An operation that fails
  leaves the account as it was.
* `opStep` is the same code cut at its remote operations: one operation with
  the local code that follows it.  `runFrom_dial` shows that the operations of
  a call, run one after the other with nothing in between, are `copyKeyToHost`.
* the worker pool of `main` (main.go 68-102) is embedded as an executable step
  function `step` over a scheduler state `Sched`; one step is one worker
  passing one program point, and an interleaving is a list of worker indices.
  Inside `copyKeyToHost` a worker issues one remote operation per step, on the
  account as the other calls have left it, so the calls on one account
  interleave.  A host may never answer an operation (`Config.blocked`): the
  code has no timeout after the dial, and the worker then waits for ever.

Go strings are byte sequences; the key material and the file content are
`List Byte`.  Host names are only compared and printed and are Lean strings.
-/

namespace SshCopyId

/-! ## Bytes -/

/-- A Go `byte`. -/
abbrev Byte := UInt8

/-- The byte of the line feed character, Go `"\n"`. -/
def newline : Byte := 10

/-- Go `bytes.HasPrefix(b, sub)`: `sub` is read off the front of `b`. -/
def hasPrefix : List Byte → List Byte → Bool
  | _, [] => true
  | [], _ :: _ => false
  | x :: b, y :: sub => x == y && hasPrefix b sub

/-- Go `bytes.Contains(b, subslice)`: some position of `b` starts a copy of
`subslice` (the empty slice is contained in everything). -/
def bytesContains : List Byte → List Byte → Bool
  | [], sub => hasPrefix [] sub
  | x :: b, sub => hasPrefix (x :: b) sub || bytesContains b sub

/-- Number of positions of `b` at which a copy of `sub` starts: how many times
`sub` occurs in `b` as a substring. -/
def occurrences (sub : List Byte) : List Byte → Nat
  | [] => if hasPrefix [] sub then 1 else 0
  | x :: b => (if hasPrefix (x :: b) sub then 1 else 0) + occurrences sub b

/-- The lines of a text: the pieces between line feeds (a text that ends with a
line feed has a last, empty piece). -/
def splitLines : List Byte → List (List Byte)
  | [] => [[]]
  | c :: cs =>
    if c = newline then [] :: splitLines cs
    else
      match splitLines cs with
      | [] => [[c]]
      | l :: ls => (c :: l) :: ls

/-! ## The remote account and the remote capability -/

/-- A remote regular file: permission bits and content. -/
structure RemoteFile where
  mode : Nat
  content : List Byte
deriving DecidableEq

/-- The part of a remote account the installer touches. -/
structure Remote where
  /-- Permission bits of `.ssh` when the directory exists. -/
  sshDir : Option Nat
  /-- The file `.ssh/authorized_keys` when it exists. -/
  authFile : Option RemoteFile
deriving DecidableEq

/-- Content of `authorized_keys`; a file that does not exist has none. -/
def Remote.content (r : Remote) : List Byte :=
  match r.authFile with
  | some f => f.content
  | none => []

/-- The scripted behaviour of the SSH/SFTP capability behind one host: for each
operation `none` when it succeeds, `some msg` when it fails with error `msg`;
and the permission bits the server gives to what it creates. -/
structure Backend where
  dial : Option String
  newClient : Option String
  mkdirAll : Option String
  chmodDir : Option String
  openFile : Option String
  readAll : Option String
  write : Option String
  sync : Option String
  chmodFile : Option String
  newDirMode : Nat
  newFileMode : Nat
deriving DecidableEq

/-- Every remote operation succeeds. -/
def Backend.allSucceed (b : Backend) : Prop :=
  b.dial = none ∧ b.newClient = none ∧ b.mkdirAll = none ∧ b.chmodDir = none ∧
  b.openFile = none ∧ b.readAll = none ∧ b.write = none ∧ b.sync = none ∧
  b.chmodFile = none

instance (b : Backend) : Decidable b.allSucceed := by
  unfold Backend.allSucceed; infer_instance

/-- A remote call issued by the installer, in the order of the source. -/
inductive Call where
  | dial (addr user password : String) (timeout : Nat)
  | newClient
  | mkdirAll (path : String)
  | chmod (path : String) (mode : Nat)
  | openFile (path : String)
  | readAll
  | write (data : List Byte)
  | sync
  | closeFile
  | closeClient
  | closeConn
deriving DecidableEq

/-- The installer's input (main.go 19-26). -/
structure HostTask where
  Host : String
  User : String
  Password : String
  Port : Nat
  PubKey : List Byte
  Timeout : Nat
deriving DecidableEq

/-- What one call of `copyKeyToHost` yields: the returned Go `error` (`none` is
`nil`), the remote state afterwards, and the remote calls issued. -/
structure Result where
  err : Option String
  remote : Remote
  calls : List Call
deriving DecidableEq

/-- Remote path of the directory (main.go 165). -/
def sshDir : String := ".ssh"

/-- Remote path of the key file (main.go 166). -/
def authFile : String := ".ssh/authorized_keys"

/-- The call `sftpClient.MkdirAll(".ssh")` succeeding: an existing directory is kept, a
missing one is created. -/
def Remote.mkdirAll (r : Remote) (b : Backend) : Remote :=
  match r.sshDir with
  | some _ => r
  | none => { r with sshDir := some b.newDirMode }

/-- The call `sftpClient.Chmod(".ssh", mode)` succeeding. -/
def Remote.chmodDir (r : Remote) (mode : Nat) : Remote :=
  match r.sshDir with
  | some _ => { r with sshDir := some mode }
  | none => r

/-- The call `sftpClient.OpenFile(authFile, O_RDWR|O_CREATE|O_APPEND)`
succeeding: a missing file is created empty. -/
def Remote.openCreate (r : Remote) (b : Backend) : Remote :=
  match r.authFile with
  | some _ => r
  | none => { r with authFile := some ⟨b.newFileMode, []⟩ }

/-- The call `f.Write(data)` on the file opened for append, succeeding. -/
def Remote.append (r : Remote) (data : List Byte) : Remote :=
  match r.authFile with
  | some f => { r with authFile := some { f with content := f.content ++ data } }
  | none => r

/-- The call `sftpClient.Chmod(authFile, mode)` succeeding. -/
def Remote.chmodFile (r : Remote) (mode : Nat) : Remote :=
  match r.authFile with
  | some f => { r with authFile := some { f with mode := mode } }
  | none => r

/-- The installer, main.go 144-204.  The deferred `Close` calls run at every
return after the point of their `defer`, last deferred first. -/
def copyKeyToHost (b : Backend) (task : HostTask) (r : Remote) : Result :=
  let addr := task.Host ++ ":" ++ toString task.Port
  let c1 := [Call.dial addr task.User task.Password task.Timeout]
  match b.dial with
  | some e => ⟨some ("connection failed: " ++ e), r, c1⟩
  | none =>
  let c2 := c1 ++ [Call.newClient]
  match b.newClient with
  | some e => ⟨some ("failed to create SFTP client: " ++ e), r, c2 ++ [Call.closeConn]⟩
  | none =>
  let c3 := c2 ++ [Call.mkdirAll sshDir]
  match b.mkdirAll with
  | some e =>
    ⟨some ("failed to create " ++ sshDir ++ " directory: " ++ e), r,
      c3 ++ [Call.closeClient, Call.closeConn]⟩
  | none =>
  let r3 := r.mkdirAll b
  let c4 := c3 ++ [Call.chmod sshDir 0o700]
  let r4 := match b.chmodDir with
    | some _ => r3
    | none => r3.chmodDir 0o700
  let c5 := c4 ++ [Call.openFile authFile]
  match b.openFile with
  | some e =>
    ⟨some ("failed to open " ++ authFile ++ ": " ++ e), r4,
      c5 ++ [Call.closeClient, Call.closeConn]⟩
  | none =>
  let r5 := r4.openCreate b
  let c6 := c5 ++ [Call.readAll]
  match b.readAll with
  | some e =>
    ⟨some ("failed to read " ++ authFile ++ ": " ++ e), r5,
      c6 ++ [Call.closeFile, Call.closeClient, Call.closeConn]⟩
  | none =>
  let existing := r5.content
  if bytesContains existing task.PubKey then
    ⟨none, r5, c6 ++ [Call.closeFile, Call.closeClient, Call.closeConn]⟩
  else
  let data := task.PubKey ++ [newline]
  let c7 := c6 ++ [Call.write data]
  match b.write with
  | some e =>
    ⟨some ("failed to append public key: " ++ e), r5,
      c7 ++ [Call.closeFile, Call.closeClient, Call.closeConn]⟩
  | none =>
  let r7 := r5.append data
  let c8 := c7 ++ [Call.sync]
  match b.sync with
  | some e =>
    ⟨some ("failed to write public key to remote disk: " ++ e), r7,
      c8 ++ [Call.closeFile, Call.closeClient, Call.closeConn]⟩
  | none =>
  let c9 := c8 ++ [Call.chmod authFile 0o600]
  match b.chmodFile with
  | some e =>
    ⟨some ("failed to set file permission: " ++ e), r7,
      c9 ++ [Call.closeFile, Call.closeClient, Call.closeConn]⟩
  | none =>
    ⟨none, r7.chmodFile 0o600, c9 ++ [Call.closeFile, Call.closeClient, Call.closeConn]⟩

/-- State of the account after `k` consecutive runs of the installer. -/
def hostState (b : Backend) (task : HostTask) (r : Remote) : Nat → Remote
  | 0 => r
  | k + 1 => (copyKeyToHost b task (hostState b task r k)).remote

/-- The per-host result that a worker prints (main.go 93-97). -/
structure Outcome where
  host : String
  err : Option String
deriving DecidableEq

/-- The line printed for an outcome (main.go 94 and 96). -/
def Outcome.line (o : Outcome) : String :=
  match o.err with
  | some e => "[" ++ o.host ++ "] ERROR: " ++ e ++ "\n"
  | none => "[" ++ o.host ++ "] Public key installed successfully\n"

/-! ## Inputs of the examples, auxiliary definitions of the installer -/

/-- The backend on which nothing fails, with the usual server defaults. -/
def okBackend : Backend :=
  ⟨none, none, none, none, none, none, none, none, none, 0o755, 0o644⟩

/-- An account with no `.ssh` directory and no key file. -/
def freshRemote : Remote := ⟨none, none⟩

/-- State of the account when the installer reaches the containment test. -/
def Remote.opened (r : Remote) (b : Backend) : Remote :=
  ((match b.chmodDir with
    | some _ => r.mkdirAll b
    | none => (r.mkdirAll b).chmodDir 0o700).openCreate b)

/-- Calls issued up to and including the read of the file. -/
def callsToRead (task : HostTask) : List Call :=
  [Call.dial (task.Host ++ ":" ++ toString task.Port) task.User task.Password task.Timeout,
    Call.newClient, Call.mkdirAll sshDir, Call.chmod sshDir 0o700, Call.openFile authFile,
    Call.readAll]

/-- A task whose key is the two bytes `ab`. -/
def taskW : HostTask := ⟨"h1", "root", "pw", 22, [97, 98], 10⟩

/-- An account whose key file is world-readable and already lists the key `ab`. -/
def presentRemote : Remote := ⟨some 0o755, some ⟨0o644, [97, 98, 10]⟩⟩

/-- An account whose key file lists the key `ab` twice. -/
def dupRemote : Remote := ⟨some 0o700, some ⟨0o600, [97, 98, 10, 97, 98, 10]⟩⟩

/-- An account whose key file has the one line `abc`. -/
def longerLineRemote : Remote := ⟨some 0o700, some ⟨0o600, [97, 98, 99, 10]⟩⟩

/-! ## The installer, one remote operation at a time -/

/-- Program point inside `copyKeyToHost`: the remote operation the call is
about to issue. -/
inductive Pc where
  /-- At `ssh.Dial` (line 153). -/
  | dial
  /-- At `sftp.NewClient` (line 159). -/
  | newClient
  /-- At `sftpClient.MkdirAll` (line 169). -/
  | mkdirAll
  /-- At `sftpClient.Chmod(sshDir, 0700)` (line 172). -/
  | chmodDir
  /-- At `sftpClient.OpenFile` (line 175). -/
  | openFile
  /-- At `io.ReadAll` (line 182). -/
  | readAll
  /-- At `f.Write` (line 192). -/
  | write
  /-- At `f.Sync` (line 195). -/
  | sync
  /-- At `sftpClient.Chmod(authFile, 0600)` (line 199). -/
  | chmodFile
deriving DecidableEq

/-- Where a call of `copyKeyToHost` stands after one remote operation. -/
inductive Next where
  /-- The call goes on to the operation at `pc`. -/
  | goto (pc : Pc)
  /-- The call returns `err` (`none` is `nil`). -/
  | ret (err : Option String)
deriving DecidableEq

/-- What one remote operation of `copyKeyToHost` yields: where the call stands,
the account afterwards, and the remote calls issued (with the deferred closes
when the call returns). -/
structure OpResult where
  next : Next
  remote : Remote
  calls : List Call
deriving DecidableEq

/-- One remote operation of `copyKeyToHost` (main.go 144-204) together with the
local code that follows it up to the next remote operation or the return.  The
test `bytes.Contains` (line 187) is local and belongs to the read. -/
def opStep (b : Backend) (task : HostTask) (pc : Pc) (r : Remote) : OpResult :=
  match pc with
  | Pc.dial =>
    let c := Call.dial (task.Host ++ ":" ++ toString task.Port) task.User task.Password
      task.Timeout
    match b.dial with
    | some e => ⟨Next.ret (some ("connection failed: " ++ e)), r, [c]⟩
    | none => ⟨Next.goto Pc.newClient, r, [c]⟩
  | Pc.newClient =>
    match b.newClient with
    | some e =>
      ⟨Next.ret (some ("failed to create SFTP client: " ++ e)), r,
        [Call.newClient, Call.closeConn]⟩
    | none => ⟨Next.goto Pc.mkdirAll, r, [Call.newClient]⟩
  | Pc.mkdirAll =>
    match b.mkdirAll with
    | some e =>
      ⟨Next.ret (some ("failed to create " ++ sshDir ++ " directory: " ++ e)), r,
        [Call.mkdirAll sshDir, Call.closeClient, Call.closeConn]⟩
    | none => ⟨Next.goto Pc.chmodDir, r.mkdirAll b, [Call.mkdirAll sshDir]⟩
  | Pc.chmodDir =>
    match b.chmodDir with
    | some _ => ⟨Next.goto Pc.openFile, r, [Call.chmod sshDir 0o700]⟩
    | none => ⟨Next.goto Pc.openFile, r.chmodDir 0o700, [Call.chmod sshDir 0o700]⟩
  | Pc.openFile =>
    match b.openFile with
    | some e =>
      ⟨Next.ret (some ("failed to open " ++ authFile ++ ": " ++ e)), r,
        [Call.openFile authFile, Call.closeClient, Call.closeConn]⟩
    | none => ⟨Next.goto Pc.readAll, r.openCreate b, [Call.openFile authFile]⟩
  | Pc.readAll =>
    match b.readAll with
    | some e =>
      ⟨Next.ret (some ("failed to read " ++ authFile ++ ": " ++ e)), r,
        [Call.readAll, Call.closeFile, Call.closeClient, Call.closeConn]⟩
    | none =>
      if bytesContains r.content task.PubKey then
        ⟨Next.ret none, r, [Call.readAll, Call.closeFile, Call.closeClient, Call.closeConn]⟩
      else ⟨Next.goto Pc.write, r, [Call.readAll]⟩
  | Pc.write =>
    match b.write with
    | some e =>
      ⟨Next.ret (some ("failed to append public key: " ++ e)), r,
        [Call.write (task.PubKey ++ [newline]), Call.closeFile, Call.closeClient,
          Call.closeConn]⟩
    | none =>
      ⟨Next.goto Pc.sync, r.append (task.PubKey ++ [newline]),
        [Call.write (task.PubKey ++ [newline])]⟩
  | Pc.sync =>
    match b.sync with
    | some e =>
      ⟨Next.ret (some ("failed to write public key to remote disk: " ++ e)), r,
        [Call.sync, Call.closeFile, Call.closeClient, Call.closeConn]⟩
    | none => ⟨Next.goto Pc.chmodFile, r, [Call.sync]⟩
  | Pc.chmodFile =>
    match b.chmodFile with
    | some e =>
      ⟨Next.ret (some ("failed to set file permission: " ++ e)), r,
        [Call.chmod authFile 0o600, Call.closeFile, Call.closeClient, Call.closeConn]⟩
    | none =>
      ⟨Next.ret none, r.chmodFile 0o600,
        [Call.chmod authFile 0o600, Call.closeFile, Call.closeClient, Call.closeConn]⟩

/-- Number of remote operations a call at `pc` issues at most before it
returns. -/
def Pc.rank : Pc → Nat
  | Pc.dial => 9
  | Pc.newClient => 8
  | Pc.mkdirAll => 7
  | Pc.chmodDir => 6
  | Pc.openFile => 5
  | Pc.readAll => 4
  | Pc.write => 3
  | Pc.sync => 2
  | Pc.chmodFile => 1

/-- The operations of one call from `pc` on, run one after the other with
nothing in between, at most `n` of them: the returned error, the account and
the calls issued.  From `pc`, `pc.rank` operations are enough. -/
def runOps (b : Backend) (task : HostTask) : Nat → Pc → Remote → Result
  | 0, _, r => ⟨none, r, []⟩
  | n + 1, pc, r =>
    match (opStep b task pc r).next with
    | Next.ret e => ⟨e, (opStep b task pc r).remote, (opStep b task pc r).calls⟩
    | Next.goto pc' =>
      ⟨(runOps b task n pc' (opStep b task pc r).remote).err,
        (runOps b task n pc' (opStep b task pc r).remote).remote,
        (opStep b task pc r).calls ++ (runOps b task n pc' (opStep b task pc r).remote).calls⟩

/-- The rest of a call that stands at `pc`, run with nothing in between. -/
def runFrom (b : Backend) (task : HostTask) (pc : Pc) (r : Remote) : Result :=
  runOps b task pc.rank pc r

/-- The error messages a backend can make `copyKeyToHost` return. -/
def Backend.errors (b : Backend) : List String :=
  (b.dial.map (fun e => "connection failed: " ++ e)).toList ++
  (b.newClient.map (fun e => "failed to create SFTP client: " ++ e)).toList ++
  (b.mkdirAll.map (fun e => "failed to create " ++ sshDir ++ " directory: " ++ e)).toList ++
  (b.openFile.map (fun e => "failed to open " ++ authFile ++ ": " ++ e)).toList ++
  (b.readAll.map (fun e => "failed to read " ++ authFile ++ ": " ++ e)).toList ++
  (b.write.map (fun e => "failed to append public key: " ++ e)).toList ++
  (b.sync.map (fun e => "failed to write public key to remote disk: " ++ e)).toList ++
  (b.chmodFile.map (fun e => "failed to set file permission: " ++ e)).toList

/-! ## The worker pool of `main` -/

/-- Program point of one worker goroutine (main.go 79-99). -/
inductive Worker where
  /-- At `for host := range tasks` (line 81). -/
  | recv
  /-- Holding `host`, at `sem <- struct{}{}` (line 82). -/
  | acquire (host : String)
  /-- Inside `copyKeyToHost` (line 83) at `pc`, a semaphore slot taken. -/
  | call (host : String) (pc : Pc)
  /-- Back from `copyKeyToHost` with `err`, at `<-sem` (line 91). -/
  | release (host : String) (err : Option String)
  /-- At the `if err != nil` that prints the outcome (line 93). -/
  | print (host : String) (err : Option String)
  /-- The loop is over and `wg.Done()` has run (line 80). -/
  | done
deriving DecidableEq

/-- The values `main` shares read-only among the workers, and the remote side:
the capability behind each host address, and the operations a host never
answers (there is no timeout after the dial, so the call then waits for
ever). -/
structure Config where
  user : String
  password : String
  port : Nat
  pubKey : List Byte
  timeout : Nat
  concurrency : Nat
  net : String → Backend
  blocked : String → Pc → Bool

/-- State of the scheduler. -/
structure Sched where
  /-- Content of the closed, buffered channel `tasks`. -/
  tasks : List String
  /-- Number of tokens in the channel `sem` (capacity `concurrency`). -/
  sem : Nat
  /-- The `concurrency` worker goroutines. -/
  workers : List Worker
  /-- The account behind each host address. -/
  remotes : String → Remote
  /-- The remote calls received so far, each with the host that received it,
  in the order of their arrival. -/
  trace : List (String × Call)
  /-- Outcomes printed so far, in order of printing. -/
  out : List Outcome

/-- The `HostTask` a worker builds for `host` (main.go 83-90). -/
def hostTask (cfg : Config) (host : String) : HostTask :=
  ⟨host, cfg.user, cfg.password, cfg.port, cfg.pubKey, cfg.timeout⟩

/-- State of `main` at line 102: `queue` has been put on `tasks` and the
channel closed (lines 68-72), `concurrency` workers have been spawned and none
has run yet. -/
def init (cfg : Config) (queue : List String) (remotes : String → Remote) : Sched :=
  ⟨queue, 0, List.replicate cfg.concurrency Worker.recv, remotes, [], []⟩

/-- One step of worker `i`; `none` when the worker is blocked, has finished or
does not exist.  A worker inside `copyKeyToHost` issues one remote operation
per step, on the account as the other calls have left it. -/
def step (cfg : Config) (i : Nat) (s : Sched) : Option Sched :=
  match s.workers[i]? with
  | none => none
  | some Worker.recv =>
    match s.tasks with
    | [] => some { s with workers := s.workers.set i Worker.done }
    | h :: rest => some { s with tasks := rest, workers := s.workers.set i (Worker.acquire h) }
  | some (Worker.acquire h) =>
    if s.sem < cfg.concurrency then
      some { s with sem := s.sem + 1, workers := s.workers.set i (Worker.call h Pc.dial) }
    else none
  | some (Worker.call h pc) =>
    if cfg.blocked h pc = true then none
    else
      some { s with
        remotes := Function.update s.remotes h
          (opStep (cfg.net h) (hostTask cfg h) pc (s.remotes h)).remote
        trace := s.trace ++
          (opStep (cfg.net h) (hostTask cfg h) pc (s.remotes h)).calls.map (fun c => (h, c))
        workers := s.workers.set i
          (match (opStep (cfg.net h) (hostTask cfg h) pc (s.remotes h)).next with
            | Next.goto pc' => Worker.call h pc'
            | Next.ret e => Worker.release h e) }
  | some (Worker.release h e) =>
    if 0 < s.sem then
      some { s with sem := s.sem - 1, workers := s.workers.set i (Worker.print h e) }
    else none
  | some (Worker.print h e) =>
    some { s with out := s.out ++ [⟨h, e⟩], workers := s.workers.set i Worker.recv }
  | some Worker.done => none

/-- Run an interleaving: the workers named in `sched` step one after the other;
`none` when a named worker cannot step. -/
def exec (cfg : Config) : List Nat → Sched → Option Sched
  | [], s => some s
  | i :: sched, s => (step cfg i s).bind (exec cfg sched)

/-- All workers have called `wg.Done()`: `wg.Wait()` (line 102) returns. -/
def terminal (s : Sched) : Bool :=
  s.workers.all (fun w => decide (w = Worker.done))

/-- Number of `copyKeyToHost` calls in flight. -/
def inFlight (s : Sched) : Nat :=
  s.workers.countP (fun w => match w with | Worker.call _ _ => true | _ => false)

/-- Whether a remote call is an `ssh.Dial`, the first thing `copyKeyToHost`
does. -/
def Call.isDial : Call → Bool
  | Call.dial _ _ _ _ => true
  | _ => false

/-- The `ssh.Dial` that `copyKeyToHost` issues for the task of `host`. -/
def dialCall (cfg : Config) (host : String) : Call :=
  Call.dial (host ++ ":" ++ toString cfg.port) cfg.user cfg.password cfg.timeout

/-- The hosts dialled so far, one entry per dial: the invocations of
`copyKeyToHost` as the remote side has seen them. -/
def dialled (s : Sched) : List String :=
  (s.trace.filter (fun p => p.2.isDial)).map Prod.fst

/-- Upper bound on the number of steps a worker at this program point takes
before its next receive from `tasks` (and that receive when nothing is
left). -/
def Worker.weight : Worker → Nat
  | Worker.recv => 1
  | Worker.acquire _ => 13
  | Worker.call _ pc => 3 + pc.rank
  | Worker.release _ _ => 3
  | Worker.print _ _ => 2
  | Worker.done => 0

/-- Upper bound on the number of steps left until `wg.Wait()` returns. -/
def stepsLeft (s : Sched) : Nat :=
  13 * s.tasks.length + (s.workers.map Worker.weight).sum

/-! ## Auxiliary definitions for the proofs about the worker pool -/

/-- Semaphore slots held by a worker at this program point. -/
def Worker.held : Worker → Nat
  | Worker.call _ _ => 1
  | Worker.release _ _ => 1
  | _ => 0

/-- Whether the worker holds `x` and has not dialled it yet. -/
def Worker.waitingN (x : String) : Worker → Nat
  | Worker.acquire h => if h = x then 1 else 0
  | Worker.call h pc => if pc = Pc.dial then (if h = x then 1 else 0) else 0
  | _ => 0

/-- Whether the worker holds `x` and has not entered `copyKeyToHost` yet. -/
def Worker.acquiringN (x : String) : Worker → Nat
  | Worker.acquire h => if h = x then 1 else 0
  | _ => 0

/-- Whether the worker has entered `copyKeyToHost` for `x` and has not printed
the outcome yet. -/
def Worker.startedN (x : String) : Worker → Nat
  | Worker.call h _ => if h = x then 1 else 0
  | Worker.release h _ => if h = x then 1 else 0
  | Worker.print h _ => if h = x then 1 else 0
  | _ => 0

/-- The result a worker is about to print, if it has one, satisfies `P`. -/
def Worker.reports (P : String → Option String → Prop) : Worker → Prop
  | Worker.release h e => P h e
  | Worker.print h e => P h e
  | _ => True

/-- An outcome is success or an error answered by the backend `b`. -/
def answeredBy (b : Backend) (e : Option String) : Prop :=
  e = none ∨ ∃ m ∈ b.errors, e = some m

/-- What holds in every state the scheduler reaches from `init cfg hosts ρ`. -/
structure Inv (cfg : Config) (hosts : List String) (s : Sched) : Prop where
  len : s.workers.length = cfg.concurrency
  sem : (s.workers.map Worker.held).sum = s.sem
  cap : s.sem ≤ cfg.concurrency
  dialed : ∀ x, s.tasks.count x + (s.workers.map (Worker.waitingN x)).sum
    + (dialled s).count x = hosts.count x
  printed : ∀ x, s.tasks.count x + (s.workers.map (Worker.acquiringN x)).sum
    + (s.workers.map (Worker.startedN x)).sum + (s.out.map Outcome.host).count x
    = hosts.count x
  closed : Worker.done ∈ s.workers → s.tasks = []
  dialTask : ∀ p ∈ s.trace, p.2.isDial = true → p.2 = dialCall cfg p.1
  held : ∀ w ∈ s.workers, w.reports (fun h e => answeredBy (cfg.net h) e)
  answered : ∀ o ∈ s.out, answeredBy (cfg.net o.host) o.err

/-- What holds of a host `x` that is queued once, in every state the scheduler
reaches from `init cfg hosts ρ`: its call, wherever it stands, is heading for
the result of `copyKeyToHost` on the account as it was at the start. -/
structure Once (cfg : Config) (ρ : String → Remote) (x : String) (s : Sched) : Prop where
  running : ∀ w ∈ s.workers, ∀ pc, w = Worker.call x pc →
    (runFrom (cfg.net x) (hostTask cfg x) pc (s.remotes x)).err
      = (copyKeyToHost (cfg.net x) (hostTask cfg x) (ρ x)).err ∧
    (runFrom (cfg.net x) (hostTask cfg x) pc (s.remotes x)).remote
      = (copyKeyToHost (cfg.net x) (hostTask cfg x) (ρ x)).remote
  reported : ∀ w ∈ s.workers, w.reports (fun h e => h = x →
    e = (copyKeyToHost (cfg.net x) (hostTask cfg x) (ρ x)).err ∧
    s.remotes x = (copyKeyToHost (cfg.net x) (hostTask cfg x) (ρ x)).remote)
  printedOnce : ∀ o ∈ s.out, o.host = x →
    o.err = (copyKeyToHost (cfg.net x) (hostTask cfg x) (ρ x)).err ∧
    s.remotes x = (copyKeyToHost (cfg.net x) (hostTask cfg x) (ρ x)).remote
  fresh : (s.workers.map (Worker.startedN x)).sum = 0 → (s.out.map Outcome.host).count x = 0 →
    s.remotes x = ρ x

/-! ## Inputs of the examples of the worker pool -/

/-- A pool of two workers; the backend of `h2` refuses to open the key file,
the other backends make everything succeed; no operation blocks. -/
def cfgW : Config :=
  ⟨"root", "pw", 22, [97, 98], 10, 2,
    fun h => if h = "h2" then { okBackend with openFile := some "denied" } else okBackend,
    fun _ _ => false⟩

/-- Accounts that all start without `.ssh`. -/
def remotesW : String → Remote := fun _ => freshRemote

/-- An interleaving of the two workers over the queue `h1`, `h2`, `h3`: worker 0
takes `h1`, worker 1 takes `h2`, both enter `copyKeyToHost`; the call on `h2`
fails at the open and its outcome is printed first; worker 0 finishes `h1`,
worker 1 serves `h3`, and both find the queue empty. -/
def schedW : List Nat :=
  [0, 1, 0, 1] ++ List.replicate 7 1 ++ List.replicate 11 0 ++ List.replicate 13 1 ++ [0, 1]

/-- The state `schedW` ends in. -/
def finalW : Sched :=
  (exec cfgW schedW (init cfgW ["h1", "h2", "h3"] remotesW)).getD
    (init cfgW ["h1", "h2", "h3"] remotesW)

/-- The state after the first four steps of `schedW`: both workers are inside
`copyKeyToHost`. -/
def midW : Sched :=
  (exec cfgW (schedW.take 4) (init cfgW ["h1", "h2", "h3"] remotesW)).getD
    (init cfgW ["h1", "h2", "h3"] remotesW)

/-- One worker; the host `h1` accepts the session and then never answers the
read of the key file. -/
def cfgStuck : Config :=
  ⟨"root", "pw", 22, [97, 98], 10, 1, fun _ => okBackend,
    fun h pc => decide (h = "h1") && decide (pc = Pc.readAll)⟩

/-- The worker takes `h1` and runs `copyKeyToHost` up to the read. -/
def schedStuck : List Nat := List.replicate 7 0

/-- The state `schedStuck` ends in. -/
def stuckW : Sched :=
  (exec cfgStuck schedStuck (init cfgStuck ["h1"] remotesW)).getD
    (init cfgStuck ["h1"] remotesW)

/-- Two workers; every host answers, and refuses the sync. -/
def cfgRace : Config :=
  ⟨"root", "pw", 22, [97, 98], 10, 2, fun _ => { okBackend with sync := some "no fsync" },
    fun _ _ => false⟩

/-- The queue `h1`, `h1` served one call after the other. -/
def schedSeq : List Nat := List.replicate 12 0 ++ List.replicate 10 1 ++ [0, 1]

/-- The queue `h1`, `h1` served with both calls reading the file before either
writes. -/
def schedRace : List Nat :=
  List.replicate 8 0 ++ List.replicate 8 1 ++ List.replicate 4 0 ++ List.replicate 4 1 ++ [0, 1]

/-- The state `schedSeq` ends in. -/
def seqEnd : Sched :=
  (exec cfgRace schedSeq (init cfgRace ["h1", "h1"] remotesW)).getD
    (init cfgRace ["h1", "h1"] remotesW)

/-- The state `schedRace` ends in. -/
def raceEnd : Sched :=
  (exec cfgRace schedRace (init cfgRace ["h1", "h1"] remotesW)).getD
    (init cfgRace ["h1", "h1"] remotesW)

/-! ## Theorems: the installer -/

theorem hasPrefix_iff (b sub : List Byte) : hasPrefix b sub = true ↔ sub <+: b := by
  induction b generalizing sub with
  | nil => cases sub <;> simp [hasPrefix]
  | cons x b ih =>
    cases sub with
    | nil => simp [hasPrefix]
    | cons y sub =>
      simp only [hasPrefix, Bool.and_eq_true, beq_iff_eq, ih, List.cons_prefix_cons]
      constructor <;> rintro ⟨h1, h2⟩ <;> exact ⟨h1.symm, h2⟩

theorem bytesContains_iff (b sub : List Byte) : bytesContains b sub = true ↔ sub <:+: b := by
  induction b with
  | nil => simp [bytesContains, hasPrefix_iff]
  | cons x b ih =>
    simp only [bytesContains, Bool.or_eq_true, hasPrefix_iff, ih, List.infix_cons_iff]

theorem bytesContains_append_self (a k c : List Byte) :
    bytesContains (a ++ k ++ c) k = true := by
  rw [bytesContains_iff]
  exact ⟨a, c, rfl⟩

theorem occurrences_eq_zero_iff (sub b : List Byte) :
    occurrences sub b = 0 ↔ bytesContains b sub = false := by
  induction b with
  | nil => simp [occurrences, bytesContains]
  | cons x b ih =>
    simp only [occurrences, bytesContains, Nat.add_eq_zero, ih, Bool.or_eq_false_iff]
    constructor
    · rintro ⟨h1, h2⟩
      refine ⟨?_, h2⟩
      by_contra h
      simp at h
      simp [h] at h1
    · rintro ⟨h1, h2⟩
      simp [h1, h2]

theorem opened_content (r : Remote) (b : Backend) : (r.opened b).content = r.content := by
  rcases r with ⟨d, f⟩
  cases d <;> cases f <;> cases h : b.chmodDir <;>
    simp [Remote.opened, Remote.mkdirAll, Remote.chmodDir, Remote.openCreate, Remote.content, h]

theorem opened_authFile (r : Remote) (b : Backend) :
    (r.opened b).authFile = some (r.authFile.getD ⟨b.newFileMode, []⟩) := by
  rcases r with ⟨d, f⟩
  cases d <;> cases f <;> cases h : b.chmodDir <;>
    simp [Remote.opened, Remote.mkdirAll, Remote.chmodDir, Remote.openCreate, h]

theorem opened_sshDir (r : Remote) (b : Backend) (hc : b.chmodDir = none) :
    (r.opened b).sshDir = some 0o700 := by
  rcases r with ⟨d, f⟩
  cases d <;> cases f <;>
    simp [Remote.opened, Remote.mkdirAll, Remote.chmodDir, Remote.openCreate, hc]

theorem opened_fixed (r : Remote) (b : Backend) (f : RemoteFile)
    (hd : r.sshDir = some 0o700) (hf : r.authFile = some f) : r.opened b = r := by
  rcases r with ⟨d, g⟩
  simp only at hd hf
  subst hd hf
  cases h : b.chmodDir <;>
    simp [Remote.opened, Remote.mkdirAll, Remote.chmodDir, Remote.openCreate, h]

theorem copyKeyToHost_present (b : Backend) (task : HostTask) (r : Remote)
    (h1 : b.dial = none) (h2 : b.newClient = none) (h3 : b.mkdirAll = none)
    (h5 : b.openFile = none) (h6 : b.readAll = none)
    (hk : bytesContains r.content task.PubKey = true) :
    copyKeyToHost b task r =
      ⟨none, r.opened b,
        callsToRead task ++ [Call.closeFile, Call.closeClient, Call.closeConn]⟩ := by
  have hc := opened_content r b
  cases h4 : b.chmodDir <;> simp only [Remote.opened, h4] at hc <;>
    simp [copyKeyToHost, h1, h2, h3, h4, h5, h6, hc, hk, Remote.opened, callsToRead]

theorem copyKeyToHost_absent (b : Backend) (task : HostTask) (r : Remote)
    (hb : b.allSucceed) (hk : bytesContains r.content task.PubKey = false) :
    copyKeyToHost b task r =
      ⟨none, ((r.opened b).append (task.PubKey ++ [newline])).chmodFile 0o600,
        callsToRead task ++ [Call.write (task.PubKey ++ [newline]), Call.sync,
          Call.chmod authFile 0o600, Call.closeFile, Call.closeClient, Call.closeConn]⟩ := by
  obtain ⟨h1, h2, h3, h4, h5, h6, h7, h8, h9⟩ := hb
  have hc := opened_content r b
  simp only [Remote.opened, h4] at hc
  simp [copyKeyToHost, h1, h2, h3, h4, h5, h6, h7, h8, h9, hc, hk, Remote.opened, callsToRead]

theorem installed_eq (r : Remote) (b : Backend) (d : List Byte) (m : Nat) :
    ((r.opened b).append d).chmodFile m = ⟨(r.opened b).sshDir, some ⟨m, r.content ++ d⟩⟩ := by
  rcases r with ⟨dir, f⟩
  cases dir <;> cases f <;> cases h : b.chmodDir <;>
    simp [Remote.opened, Remote.mkdirAll, Remote.chmodDir, Remote.openCreate, Remote.append,
      Remote.chmodFile, Remote.content, h]

theorem content_mk (d : Option Nat) (f : RemoteFile) : (Remote.mk d (some f)).content = f.content := rfl

theorem chmodDir_irrelevant (b : Backend) (d : Option String) (task : HostTask) (r : Remote) :
    (copyKeyToHost { b with chmodDir := d } task r).err = (copyKeyToHost b task r).err ∧
    (copyKeyToHost { b with chmodDir := d } task r).remote.authFile
      = (copyKeyToHost b task r).remote.authFile ∧
    (copyKeyToHost { b with chmodDir := d } task r).calls = (copyKeyToHost b task r).calls := by
  rcases r with ⟨dir, f⟩
  cases h1 : b.dial with
  | some e => simp [copyKeyToHost, h1]
  | none =>
  cases h2 : b.newClient with
  | some e => simp [copyKeyToHost, h1, h2]
  | none =>
  cases h3 : b.mkdirAll with
  | some e => simp [copyKeyToHost, h1, h2, h3]
  | none =>
  cases h5 : b.openFile with
  | some e =>
    cases dir <;> cases d <;> cases h4 : b.chmodDir <;>
      simp [copyKeyToHost, h1, h2, h3, h4, h5, Remote.mkdirAll, Remote.chmodDir]
  | none =>
  cases h6 : b.readAll with
  | some e =>
    cases dir <;> cases f <;> cases d <;> cases h4 : b.chmodDir <;>
      simp [copyKeyToHost, h1, h2, h3, h4, h5, h6, Remote.mkdirAll, Remote.chmodDir,
        Remote.openCreate]
  | none =>
  cases h7 : b.write with
  | some e =>
    cases dir <;> cases f <;> cases d <;> cases h4 : b.chmodDir <;>
      simp [copyKeyToHost, h1, h2, h3, h4, h5, h6, h7, Remote.mkdirAll, Remote.chmodDir,
        Remote.openCreate, Remote.content] <;>
      split <;> simp
  | none =>
  cases h8 : b.sync with
  | some e =>
    cases dir <;> cases f <;> cases d <;> cases h4 : b.chmodDir <;>
      simp [copyKeyToHost, h1, h2, h3, h4, h5, h6, h7, h8, Remote.mkdirAll, Remote.chmodDir,
        Remote.openCreate, Remote.content, Remote.append] <;>
      split <;> simp
  | none =>
  cases h9 : b.chmodFile <;>
    cases dir <;> cases f <;> cases d <;> cases h4 : b.chmodDir <;>
      simp [copyKeyToHost, h1, h2, h3, h4, h5, h6, h7, h8, h9, Remote.mkdirAll,
        Remote.chmodDir, Remote.openCreate, Remote.content, Remote.append,
        Remote.chmodFile] <;>
      split <;> simp

/-- C1: on a backend where every remote operation succeeds, a second run of the
installer right after a first one leaves the content of `authorized_keys` (and
the whole account) as the first run left it, issues no write call, and both
runs return success. -/
theorem copyKeyToHost_idempotent (b : Backend) (task : HostTask) (r : Remote)
    (hb : b.allSucceed) :
    (copyKeyToHost b task (copyKeyToHost b task r).remote).remote.content
        = (copyKeyToHost b task r).remote.content ∧
    (copyKeyToHost b task (copyKeyToHost b task r).remote).remote
        = (copyKeyToHost b task r).remote ∧
    (∀ d, Call.write d ∉ (copyKeyToHost b task (copyKeyToHost b task r).remote).calls) ∧
    (copyKeyToHost b task r).err = none ∧
    (copyKeyToHost b task (copyKeyToHost b task r).remote).err = none := by
  have hb' := hb
  obtain ⟨h1, h2, h3, h4, h5, h6, -, -, -⟩ := hb'
  have key : ∃ f, (copyKeyToHost b task r).err = none ∧
      (copyKeyToHost b task r).remote.sshDir = some 0o700 ∧
      (copyKeyToHost b task r).remote.authFile = some f ∧
      bytesContains (copyKeyToHost b task r).remote.content task.PubKey = true := by
    cases hk : bytesContains r.content task.PubKey with
    | true =>
      rw [copyKeyToHost_present b task r h1 h2 h3 h5 h6 hk]
      exact ⟨_, rfl, opened_sshDir r b h4, opened_authFile r b, by
        simp only [opened_content]; exact hk⟩
    | false =>
      rw [copyKeyToHost_absent b task r hb hk, installed_eq]
      refine ⟨_, rfl, opened_sshDir r b h4, rfl, ?_⟩
      simp only [content_mk, ← List.append_assoc]
      exact bytesContains_append_self _ _ _
  obtain ⟨f, he, hd, hf, hc⟩ := key
  have h2nd := copyKeyToHost_present b task _ h1 h2 h3 h5 h6 hc
  rw [opened_fixed _ b f hd hf] at h2nd
  rw [h2nd]
  refine ⟨rfl, rfl, ?_, he, rfl⟩
  intro d
  simp [callsToRead]

/-- C3, as stated, fails: on a backend where everything succeeds and an account
whose world-readable key file already lists the key, the installer returns
success with no write, but never issues the chmod of `authorized_keys`, whose
mode stays 0644. -/
theorem present_skips_file_chmod :
    okBackend.allSucceed ∧
    bytesContains presentRemote.content taskW.PubKey = true ∧
    (copyKeyToHost okBackend taskW presentRemote).err = none ∧
    Call.chmod authFile 0o600 ∉ (copyKeyToHost okBackend taskW presentRemote).calls ∧
    (copyKeyToHost okBackend taskW presentRemote).remote.authFile
      = some ⟨0o644, [97, 98, 10]⟩ := by
  decide

/-- C3, amended: when dial, SFTP start, directory creation, open and read
succeed and the file already contains the key, the installer returns success
having issued exactly dial, SFTP start, mkdir, chmod of `.ssh` to 0700, open,
read and the three closes: no write call and no chmod of `authorized_keys`;
the file keeps its content and its mode. -/
theorem present_no_write (b : Backend) (task : HostTask) (r : Remote)
    (h1 : b.dial = none) (h2 : b.newClient = none) (h3 : b.mkdirAll = none)
    (h5 : b.openFile = none) (h6 : b.readAll = none)
    (hk : bytesContains r.content task.PubKey = true) :
    (copyKeyToHost b task r).err = none ∧
    (copyKeyToHost b task r).calls =
      [Call.dial (task.Host ++ ":" ++ toString task.Port) task.User task.Password task.Timeout,
        Call.newClient, Call.mkdirAll sshDir, Call.chmod sshDir 0o700, Call.openFile authFile,
        Call.readAll, Call.closeFile, Call.closeClient, Call.closeConn] ∧
    (∀ d, Call.write d ∉ (copyKeyToHost b task r).calls) ∧
    (∀ m, Call.chmod authFile m ∉ (copyKeyToHost b task r).calls) ∧
    (copyKeyToHost b task r).remote.authFile = some (r.authFile.getD ⟨b.newFileMode, []⟩) ∧
    (copyKeyToHost b task r).remote.content = r.content := by
  rw [copyKeyToHost_present b task r h1 h2 h3 h5 h6 hk]
  refine ⟨rfl, rfl, ?_, ?_, opened_authFile r b, opened_content r b⟩
  · intro d; simp [callsToRead]
  · intro m; simp [callsToRead, sshDir, authFile]

theorem present_no_write_witness :
    (copyKeyToHost okBackend taskW presentRemote).err = none ∧
    (copyKeyToHost okBackend taskW presentRemote).calls =
      [Call.dial (taskW.Host ++ ":" ++ toString taskW.Port) taskW.User taskW.Password
          taskW.Timeout,
        Call.newClient, Call.mkdirAll sshDir, Call.chmod sshDir 0o700, Call.openFile authFile,
        Call.readAll, Call.closeFile, Call.closeClient, Call.closeConn] ∧
    (∀ d, Call.write d ∉ (copyKeyToHost okBackend taskW presentRemote).calls) ∧
    (∀ m, Call.chmod authFile m ∉ (copyKeyToHost okBackend taskW presentRemote).calls) ∧
    (copyKeyToHost okBackend taskW presentRemote).remote.authFile
      = some (presentRemote.authFile.getD ⟨okBackend.newFileMode, []⟩) ∧
    (copyKeyToHost okBackend taskW presentRemote).remote.content = presentRemote.content :=
  present_no_write okBackend taskW presentRemote rfl rfl rfl rfl rfl (by decide)

theorem copyKeyToHost_idempotent_witness :
    (copyKeyToHost okBackend taskW
        (copyKeyToHost okBackend taskW freshRemote).remote).remote.content
        = [97, 98, 10] ∧
    (copyKeyToHost okBackend taskW freshRemote).remote.content = [97, 98, 10] :=
  ⟨(copyKeyToHost_idempotent okBackend taskW freshRemote (by decide)).1.trans (by decide),
    by decide⟩

/-- C4: when every remote operation succeeds and the existing content of
`authorized_keys` does not contain the key (a missing file has empty content),
the installer returns success, `.ssh` exists afterwards (with mode 0700), the
file is the previous content followed by the key and one line feed, with mode
0600, and exactly one write was issued. -/
theorem key_absent_appends (b : Backend) (task : HostTask) (r : Remote)
    (hb : b.allSucceed) (hk : bytesContains r.content task.PubKey = false) :
    (copyKeyToHost b task r).err = none ∧
    (copyKeyToHost b task r).remote.sshDir = some 0o700 ∧
    (copyKeyToHost b task r).remote.authFile
      = some ⟨0o600, r.content ++ task.PubKey ++ [newline]⟩ ∧
    (copyKeyToHost b task r).calls.filter (fun c => match c with
        | Call.write _ => true
        | _ => false) = [Call.write (task.PubKey ++ [newline])] := by
  rw [copyKeyToHost_absent b task r hb hk, installed_eq]
  refine ⟨rfl, opened_sshDir r b hb.2.2.2.1, ?_, ?_⟩
  · simp
  · simp [callsToRead, List.filter]

theorem key_absent_appends_witness :
    (copyKeyToHost okBackend taskW freshRemote).err = none ∧
    (copyKeyToHost okBackend taskW freshRemote).remote.sshDir = some 0o700 ∧
    (copyKeyToHost okBackend taskW freshRemote).remote.authFile
      = some ⟨0o600, freshRemote.content ++ taskW.PubKey ++ [newline]⟩ ∧
    (copyKeyToHost okBackend taskW freshRemote).calls.filter (fun c => match c with
        | Call.write _ => true
        | _ => false) = [Call.write (taskW.PubKey ++ [newline])] :=
  key_absent_appends okBackend taskW freshRemote (by decide) (by decide)

/-- C8: when dial and SFTP start succeed and the recursive creation of `.ssh`
fails with error `e`, the installer returns the directory error built from `e`,
the calls issued are dial, SFTP start, the failed mkdir and the two closes (no
chmod, no open, no read, no write), and the account is unchanged. -/
theorem mkdir_failure_stops (b : Backend) (task : HostTask) (r : Remote) (e : String)
    (h1 : b.dial = none) (h2 : b.newClient = none) (h3 : b.mkdirAll = some e) :
    (copyKeyToHost b task r).err = some ("failed to create " ++ sshDir ++ " directory: " ++ e) ∧
    (copyKeyToHost b task r).calls =
      [Call.dial (task.Host ++ ":" ++ toString task.Port) task.User task.Password task.Timeout,
        Call.newClient, Call.mkdirAll sshDir, Call.closeClient, Call.closeConn] ∧
    (∀ p m, Call.chmod p m ∉ (copyKeyToHost b task r).calls) ∧
    (∀ p, Call.openFile p ∉ (copyKeyToHost b task r).calls) ∧
    Call.readAll ∉ (copyKeyToHost b task r).calls ∧
    (∀ d, Call.write d ∉ (copyKeyToHost b task r).calls) ∧
    (copyKeyToHost b task r).remote = r := by
  simp [copyKeyToHost, h1, h2, h3]

theorem mkdir_failure_stops_witness :
    (copyKeyToHost { okBackend with mkdirAll := some "permission denied" } taskW
        presentRemote).err = some "failed to create .ssh directory: permission denied" ∧
    (copyKeyToHost { okBackend with mkdirAll := some "permission denied" } taskW
        presentRemote).remote = presentRemote :=
  ⟨(mkdir_failure_stops { okBackend with mkdirAll := some "permission denied" } taskW
      presentRemote "permission denied" rfl rfl rfl).1.trans (by decide),
    (mkdir_failure_stops { okBackend with mkdirAll := some "permission denied" } taskW
      presentRemote "permission denied" rfl rfl rfl).2.2.2.2.2.2⟩

/-- C10: the outcome of the installer, the resulting `authorized_keys` file
(content and mode) and the calls issued are the same whatever the chmod of
`.ssh` to 0700 answers;
whereas when everything up to the sync succeeds, the key is not yet in the
file, and the chmod of `authorized_keys` to 0600 fails with `e`, the installer
returns the permission error built from `e`, the key having been appended. -/
theorem chmod_dir_advisory_file_fatal (b : Backend) (task : HostTask) (r : Remote) :
    (∀ d1 d2 : Option String,
      (copyKeyToHost { b with chmodDir := d1 } task r).err
        = (copyKeyToHost { b with chmodDir := d2 } task r).err ∧
      (copyKeyToHost { b with chmodDir := d1 } task r).remote.authFile
        = (copyKeyToHost { b with chmodDir := d2 } task r).remote.authFile ∧
      (copyKeyToHost { b with chmodDir := d1 } task r).remote.content
        = (copyKeyToHost { b with chmodDir := d2 } task r).remote.content ∧
      (copyKeyToHost { b with chmodDir := d1 } task r).calls
        = (copyKeyToHost { b with chmodDir := d2 } task r).calls) ∧
    (∀ e, b.dial = none → b.newClient = none → b.mkdirAll = none → b.openFile = none →
      b.readAll = none → b.write = none → b.sync = none → b.chmodFile = some e →
      bytesContains r.content task.PubKey = false →
      (copyKeyToHost b task r).err = some ("failed to set file permission: " ++ e) ∧
      (copyKeyToHost b task r).remote.content = r.content ++ task.PubKey ++ [newline]) := by
  constructor
  · intro d1 d2
    have a := chmodDir_irrelevant b d1 task r
    have c := chmodDir_irrelevant b d2 task r
    have hf := a.2.1.trans c.2.1.symm
    exact ⟨a.1.trans c.1.symm, hf, by simp only [Remote.content, hf], a.2.2.trans c.2.2.symm⟩
  · intro e h1 h2 h3 h5 h6 h7 h8 h9 hk
    have hc := opened_content r b
    rcases r with ⟨dir, f⟩
    cases h4 : b.chmodDir <;> cases dir <;> cases f <;>
      simp_all [copyKeyToHost, Remote.opened, Remote.mkdirAll, Remote.chmodDir,
        Remote.openCreate, Remote.content, Remote.append]

theorem bytesContains_append_self' (a k c : List Byte) :
    bytesContains (a ++ (k ++ c)) k = true := by
  rw [← List.append_assoc]; exact bytesContains_append_self a k c

theorem bytesContains_append_right (k c : List Byte) :
    bytesContains (k ++ c) k = true := by
  rw [bytesContains_iff]; exact ⟨[], c, rfl⟩

theorem copyKeyToHost_content (b : Backend) (task : HostTask) (r : Remote) :
    ((copyKeyToHost b task r).remote.content = r.content ∨
      (bytesContains r.content task.PubKey = false ∧
        (copyKeyToHost b task r).remote.content = r.content ++ task.PubKey ++ [newline])) ∧
    ((copyKeyToHost b task r).err = none →
      bytesContains (copyKeyToHost b task r).remote.content task.PubKey = true) := by
  rcases r with ⟨dir, f⟩
  unfold copyKeyToHost
  simp only []
  repeat' split
  all_goals
    cases dir <;> cases f <;>
      simp_all [Remote.mkdirAll, Remote.chmodDir, Remote.openCreate, Remote.content,
        Remote.append, Remote.chmodFile, bytesContains_append_self',
          bytesContains_append_right]

theorem occurrences_pos_iff (sub b : List Byte) :
    1 ≤ occurrences sub b ↔ bytesContains b sub = true := by
  have := occurrences_eq_zero_iff sub b
  cases h : bytesContains b sub
  · simp [this.2 h]
  · simp only [iff_true]
    rcases Nat.eq_zero_or_pos (occurrences sub b) with h0 | h0
    · rw [this.1 h0] at h; cases h
    · exact h0

theorem mem_of_getLast?_some {x : Byte} : ∀ {l : List Byte}, l.getLast? = some x → x ∈ l
  | [], h => by simp at h
  | [a], h => by simp at h; simp [h]
  | a :: b :: l, h => by
    rw [List.getLast?_cons_cons] at h
    exact List.mem_cons_of_mem _ (mem_of_getLast?_some h)

/-- The key followed by a line feed holds the key once. -/
theorem occurrences_key_newline (key : List Byte) (hne : key ≠ []) (hnl : newline ∉ key) :
    occurrences key (key ++ [newline]) = 1 := by
  cases key with
  | nil => exact absurd rfl hne
  | cons k ks =>
    have h0 : hasPrefix ((k :: ks) ++ [newline]) (k :: ks) = true := by
      rw [hasPrefix_iff]; exact List.prefix_append _ _
    have h1 : occurrences (k :: ks) (ks ++ [newline]) = 0 := by
      rw [occurrences_eq_zero_iff]
      cases hc : bytesContains (ks ++ [newline]) (k :: ks) with
      | false => rfl
      | true =>
        exfalso
        rw [bytesContains_iff] at hc
        have hlen : (k :: ks).length = (ks ++ [newline]).length := by simp
        have := hc.sublist.eq_of_length hlen
        apply hnl
        rw [this]
        simp
    show (if hasPrefix (k :: (ks ++ [newline])) (k :: ks) = true then 1 else 0)
      + occurrences (k :: ks) (ks ++ [newline]) = 1
    rw [h1]
    rw [List.cons_append] at h0
    simp [h0]

/-- Appending a single-line key and a line feed to a text of whole lines that
does not hold the key yields a text that holds it once. -/
theorem occurrences_append_key (key : List Byte) (hne : key ≠ []) (hnl : newline ∉ key) :
    ∀ pre : List Byte, (pre = [] ∨ pre.getLast? = some newline) →
      bytesContains pre key = false →
      occurrences key (pre ++ key ++ [newline]) = 1
  | [], _, _ => by simpa using occurrences_key_newline key hne hnl
  | x :: pre, hlast, hc => by
    have hlast' : pre = [] ∨ pre.getLast? = some newline := by
      cases pre with
      | nil => exact Or.inl rfl
      | cons y pre =>
        right
        rcases hlast with h | h
        · cases h
        · rwa [List.getLast?_cons_cons] at h
    have hc' : bytesContains pre key = false := by
      cases h : bytesContains pre key with
      | false => rfl
      | true => simp [bytesContains, h] at hc
    have ih := occurrences_append_key key hne hnl pre hlast' hc'
    have hmem : newline ∈ x :: pre := by
      rcases hlast with h | h
      · cases h
      · exact mem_of_getLast?_some h
    have hp : hasPrefix (x :: (pre ++ key ++ [newline])) key = false := by
      cases h : hasPrefix (x :: (pre ++ key ++ [newline])) key with
      | false => rfl
      | true =>
        exfalso
        rw [hasPrefix_iff] at h
        have h2 : (x :: pre) <+: x :: (pre ++ key ++ [newline]) := by
          refine ⟨key ++ [newline], ?_⟩
          simp
        rcases List.prefix_or_prefix_of_prefix h h2 with h3 | h3
        · have : bytesContains (x :: pre) key = true := by
            rw [bytesContains_iff]; exact h3.isInfix
          rw [this] at hc; cases hc
        · exact hnl (h3.subset hmem)
    show (if hasPrefix (x :: (pre ++ key ++ [newline])) key = true then 1 else 0)
      + occurrences key (pre ++ key ++ [newline]) = 1
    rw [hp, ih]
    simp

theorem splitLines_ne_nil (t : List Byte) : splitLines t ≠ [] := by
  cases t with
  | nil => simp [splitLines]
  | cons c cs =>
    simp only [splitLines]
    split
    · simp
    · split <;> simp

theorem splitLines_append_newline (a b : List Byte) :
    splitLines (a ++ newline :: b) = splitLines a ++ splitLines b := by
  induction a with
  | nil => simp [splitLines]
  | cons c a ih =>
    simp only [List.cons_append, splitLines]
    split
    · simp [ih]
    · rw [List.append_eq, ih]
      cases h : splitLines a with
      | nil => exact absurd h (splitLines_ne_nil a)
      | cons l ls => simp

theorem splitLines_single (key : List Byte) (hnl : newline ∉ key) : splitLines key = [key] := by
  induction key with
  | nil => rfl
  | cons c cs ih =>
    have hc : c ≠ newline := fun h => hnl (by simp [h])
    have hcs : newline ∉ cs := fun h => hnl (List.mem_cons_of_mem _ h)
    simp [splitLines, hc, ih hcs]

/-- A single-line key appended with a line feed to a text of whole lines is a
line of the result. -/
theorem key_mem_splitLines (key pre : List Byte) (hnl : newline ∉ key)
    (hlast : pre = [] ∨ pre.getLast? = some newline) :
    key ∈ splitLines (pre ++ key ++ [newline]) := by
  have hk : splitLines (key ++ [newline]) = [key, []] := by
    have := splitLines_append_newline key []
    rw [splitLines_single key hnl] at this
    simpa [splitLines] using this
  rcases hlast with h | h
  · subst h
    simp [hk]
  · have hpre : pre = pre.dropLast ++ [newline] := by
      have := List.dropLast_append_getLast? newline (by simpa using h)
      exact this.symm
    rw [hpre]
    have : pre.dropLast ++ [newline] ++ key ++ [newline]
        = pre.dropLast ++ newline :: (key ++ [newline]) := by simp
    rw [this, splitLines_append_newline, hk]
    simp

theorem hostState_one_content (b : Backend) (task : HostTask) (r : Remote)
    (hs : (copyKeyToHost b task r).err = none) :
    (hostState b task r 1).content =
      (if bytesContains r.content task.PubKey then r.content
       else r.content ++ task.PubKey ++ [newline]) ∧
    bytesContains (hostState b task r 1).content task.PubKey = true := by
  obtain ⟨h1, h2⟩ := copyKeyToHost_content b task r
  have h3 := h2 hs
  refine ⟨?_, h3⟩
  show (copyKeyToHost b task r).remote.content = _
  cases hk : bytesContains r.content task.PubKey with
  | true =>
    rcases h1 with h | ⟨h, -⟩
    · simpa using h
    · rw [hk] at h; cases h
  | false =>
    rcases h1 with h | ⟨-, h⟩
    · rw [h, hk] at h3; cases h3
    · simpa using h

theorem hostState_content (b : Backend) (task : HostTask) (r : Remote) :
    ∀ n, 1 ≤ n → (∀ j, j < n → (copyKeyToHost b task (hostState b task r j)).err = none) →
      (hostState b task r n).content = (hostState b task r 1).content
  | 0, h, _ => absurd h (by decide)
  | 1, _, _ => rfl
  | n + 2, _, hs => by
    have ih := hostState_content b task r (n + 1) (Nat.succ_le_succ (Nat.zero_le n))
      (fun j hj => hs j (Nat.lt_succ_of_lt hj))
    have h0 := (hostState_one_content b task r (hs 0 (Nat.succ_pos _))).2
    rw [← ih] at h0
    obtain ⟨h1, -⟩ := copyKeyToHost_content b task (hostState b task r (n + 1))
    show (copyKeyToHost b task (hostState b task r (n + 1))).remote.content = _
    rcases h1 with h | ⟨h, -⟩
    · rw [h, ih]
    · rw [h0] at h; cases h

/-- C2, as stated, fails: a key file that lists the key twice still lists it
twice after a successful run. -/
theorem exactly_once_fails :
    (copyKeyToHost okBackend taskW dupRemote).err = none ∧
    occurrences taskW.PubKey (hostState okBackend taskW dupRemote 1).content = 2 ∧
    occurrences taskW.PubKey (hostState okBackend taskW dupRemote 1).content ≠ 1 := by
  decide

/-- C2, amended: after `n ≥ 1` successful runs the content of `authorized_keys`
is the initial content when that already contained the key, and the initial
content followed by the key and one line feed otherwise (the runs append the
key at most once); it contains the key at least once; and it contains the key
exactly once when the initial content contained it exactly once, or when the
key is a non-empty single line and the initial content, not containing the key,
is empty or ends with a line feed. -/
theorem runs_install_key_once (b : Backend) (task : HostTask) (r : Remote) (n : Nat)
    (hn : 1 ≤ n)
    (hs : ∀ j, j < n → (copyKeyToHost b task (hostState b task r j)).err = none) :
    (hostState b task r n).content =
      (if bytesContains r.content task.PubKey then r.content
       else r.content ++ task.PubKey ++ [newline]) ∧
    1 ≤ occurrences task.PubKey (hostState b task r n).content ∧
    (occurrences task.PubKey r.content = 1 →
      occurrences task.PubKey (hostState b task r n).content = 1) ∧
    (task.PubKey ≠ [] → newline ∉ task.PubKey →
      (r.content = [] ∨ r.content.getLast? = some newline) →
      bytesContains r.content task.PubKey = false →
      occurrences task.PubKey (hostState b task r n).content = 1) := by
  have h0 := hostState_one_content b task r (hs 0 hn)
  have hc := hostState_content b task r n hn hs
  rw [← hc] at h0
  obtain ⟨h1, h2⟩ := h0
  refine ⟨h1, (occurrences_pos_iff _ _).2 h2, ?_, ?_⟩
  · intro h
    have : bytesContains r.content task.PubKey = true :=
      (occurrences_pos_iff _ _).1 (by omega)
    rw [h1, this]
    simpa using h
  · intro hne hnl hlast hk
    rw [h1, hk]
    simpa using occurrences_append_key task.PubKey hne hnl r.content hlast hk

theorem runs_install_key_once_witness :
    (hostState okBackend taskW freshRemote 2).content = [97, 98, 10] ∧
    occurrences taskW.PubKey (hostState okBackend taskW freshRemote 2).content = 1 :=
  ⟨(runs_install_key_once okBackend taskW freshRemote 2 (by decide) (by decide)).1.trans
      (by decide),
    (runs_install_key_once okBackend taskW freshRemote 2 (by decide) (by decide)).2.2.2
      (by decide) (by decide) (by decide) (by decide)⟩

/-- C9, as stated, fails: the key `ab` is found as a substring of the line
`abc`, the run succeeds without writing, and no line of the file is the key. -/
theorem substring_is_not_a_line :
    newline ∉ taskW.PubKey ∧
    (copyKeyToHost okBackend taskW longerLineRemote).err = none ∧
    taskW.PubKey ∉ splitLines (copyKeyToHost okBackend taskW longerLineRemote).remote.content := by
  decide

/-- C9, amended: after a successful run the file contains the key as a
substring; and when the run appended it (the previous content did not contain
it), the key is a single line and the previous content was empty or ended with
a line feed, one of the lines of the file is exactly the key. -/
theorem installed_key_line (b : Backend) (task : HostTask) (r : Remote)
    (hs : (copyKeyToHost b task r).err = none) :
    bytesContains (copyKeyToHost b task r).remote.content task.PubKey = true ∧
    (bytesContains r.content task.PubKey = false → newline ∉ task.PubKey →
      (r.content = [] ∨ r.content.getLast? = some newline) →
      task.PubKey ∈ splitLines (copyKeyToHost b task r).remote.content) := by
  have h0 := hostState_one_content b task r hs
  refine ⟨h0.2, ?_⟩
  intro hk hnl hlast
  have h1 : (copyKeyToHost b task r).remote.content = _ := h0.1
  rw [h1, hk]
  simpa using key_mem_splitLines task.PubKey r.content hnl hlast

theorem installed_key_line_witness :
    bytesContains (copyKeyToHost okBackend taskW freshRemote).remote.content taskW.PubKey = true ∧
    taskW.PubKey ∈ splitLines (copyKeyToHost okBackend taskW freshRemote).remote.content :=
  ⟨(installed_key_line okBackend taskW freshRemote (by decide)).1,
    (installed_key_line okBackend taskW freshRemote (by decide)).2
      (by decide) (by decide) (by decide)⟩

theorem chmod_dir_advisory_file_fatal_witness :
    (copyKeyToHost { okBackend with chmodDir := some "denied" } taskW freshRemote).err
      = (copyKeyToHost { okBackend with chmodDir := none } taskW freshRemote).err ∧
    (copyKeyToHost { okBackend with chmodFile := some "denied" } taskW freshRemote).err
      = some "failed to set file permission: denied" ∧
    (copyKeyToHost { okBackend with chmodFile := some "denied" } taskW freshRemote).remote.content
      = [97, 98, 10] :=
  ⟨((chmod_dir_advisory_file_fatal okBackend taskW freshRemote).1 (some "denied") none).1,
    ((chmod_dir_advisory_file_fatal { okBackend with chmodFile := some "denied" } taskW
      freshRemote).2 "denied" rfl rfl rfl rfl rfl rfl rfl rfl (by decide)).1.trans (by decide),
    ((chmod_dir_advisory_file_fatal { okBackend with chmodFile := some "denied" } taskW
      freshRemote).2 "denied" rfl rfl rfl rfl rfl rfl rfl rfl (by decide)).2.trans (by decide)⟩

/-! ## Theorems: the installer, one remote operation at a time -/

theorem opStep_rank {b : Backend} {task : HostTask} {pc pc' : Pc} {r : Remote}
    (h : (opStep b task pc r).next = Next.goto pc') : pc'.rank + 1 = pc.rank := by
  cases pc <;> simp only [opStep] at h <;> (repeat' split at h) <;>
    simp only [Next.goto.injEq] at h <;> first | (subst h; rfl) | cases h

theorem runFrom_eq (b : Backend) (task : HostTask) (pc : Pc) (r : Remote) :
    runFrom b task pc r =
      match (opStep b task pc r).next with
      | Next.ret e => ⟨e, (opStep b task pc r).remote, (opStep b task pc r).calls⟩
      | Next.goto pc' =>
        ⟨(runFrom b task pc' (opStep b task pc r).remote).err,
          (runFrom b task pc' (opStep b task pc r).remote).remote,
          (opStep b task pc r).calls ++ (runFrom b task pc' (opStep b task pc r).remote).calls⟩ := by
  have hpos : pc.rank = (pc.rank - 1) + 1 := by cases pc <;> rfl
  unfold runFrom
  rw [hpos, runOps]
  cases hn : (opStep b task pc r).next with
  | ret e => rfl
  | goto pc' =>
    have := opStep_rank hn
    simp only
    have h2 : pc.rank - 1 = pc'.rank := by omega
    rw [h2]

theorem runFrom_ret {b : Backend} {task : HostTask} {pc : Pc} {r : Remote} {e : Option String}
    (h : (opStep b task pc r).next = Next.ret e) :
    (runFrom b task pc r).err = e ∧ (runFrom b task pc r).remote = (opStep b task pc r).remote := by
  rw [runFrom_eq, h]; exact ⟨rfl, rfl⟩

theorem runFrom_goto {b : Backend} {task : HostTask} {pc pc' : Pc} {r : Remote}
    (h : (opStep b task pc r).next = Next.goto pc') :
    (runFrom b task pc r).err = (runFrom b task pc' (opStep b task pc r).remote).err ∧
    (runFrom b task pc r).remote = (runFrom b task pc' (opStep b task pc r).remote).remote := by
  rw [runFrom_eq, h]; exact ⟨rfl, rfl⟩

/-- The operations of a call, run one after the other with nothing in between,
are `copyKeyToHost`: same error, same account, same calls. -/
theorem runFrom_dial (b : Backend) (task : HostTask) (r : Remote) :
    runFrom b task Pc.dial r = copyKeyToHost b task r := by
  rw [runFrom_eq]
  cases h1 : b.dial with
  | some e => simp [opStep, copyKeyToHost, h1]
  | none =>
  simp only [opStep, h1]
  rw [runFrom_eq]
  cases h2 : b.newClient with
  | some e => simp [opStep, copyKeyToHost, h1, h2]
  | none =>
  simp only [opStep, h2]
  rw [runFrom_eq]
  cases h3 : b.mkdirAll with
  | some e => simp [opStep, copyKeyToHost, h1, h2, h3]
  | none =>
  simp only [opStep, h3]
  rw [runFrom_eq]
  cases h4 : b.chmodDir <;>
  · simp only [opStep, h4]
    rw [runFrom_eq]
    cases h5 : b.openFile with
    | some e => simp [opStep, copyKeyToHost, h1, h2, h3, h4, h5]
    | none =>
    simp only [opStep, h5]
    rw [runFrom_eq]
    cases h6 : b.readAll with
    | some e => simp [opStep, copyKeyToHost, h1, h2, h3, h4, h5, h6]
    | none =>
    simp only [opStep, h6]
    split_ifs with hk
    · simp [copyKeyToHost, h1, h2, h3, h4, h5, h6, hk]
    · simp only
      rw [runFrom_eq]
      cases h7 : b.write with
      | some e => simp [opStep, copyKeyToHost, h1, h2, h3, h4, h5, h6, h7, hk]
      | none =>
      simp only [opStep, h7]
      rw [runFrom_eq]
      cases h8 : b.sync with
      | some e => simp [opStep, copyKeyToHost, h1, h2, h3, h4, h5, h6, h7, h8, hk]
      | none =>
      simp only [opStep, h8]
      rw [runFrom_eq]
      cases h9 : b.chmodFile <;>
        simp [opStep, copyKeyToHost, h1, h2, h3, h4, h5, h6, h7, h8, h9, hk]

/-! ## Theorems: the worker pool -/

theorem sum_map_set (f : Worker → Nat) :
    ∀ (ws : List Worker) (i : Nat) (w0 w1 : Worker), ws[i]? = some w0 →
      ((ws.set i w1).map f).sum + f w0 = (ws.map f).sum + f w1
  | [], i, w0, w1, h => by simp at h
  | w :: ws, 0, w0, w1, h => by
    simp at h
    subst h
    simp only [List.set, List.map_cons, List.sum_cons]
    omega
  | w :: ws, i + 1, w0, w1, h => by
    simp at h
    have := sum_map_set f ws i w0 w1 (by simpa using h)
    simp only [List.set, List.map_cons, List.sum_cons]
    omega

theorem sum_map_eq_zero (f : Worker → Nat) (ws : List Worker) (h : ∀ w ∈ ws, f w = 0) :
    (ws.map f).sum = 0 := by
  induction ws with
  | nil => rfl
  | cons w ws ih =>
    simp only [List.map_cons, List.sum_cons]
    rw [h w (List.mem_cons_self _ _), ih (fun v hv => h v (List.mem_cons_of_mem _ hv))]

theorem le_sum_map (f : Worker → Nat) (ws : List Worker) (w : Worker) (h : w ∈ ws) :
    f w ≤ (ws.map f).sum := by
  induction ws with
  | nil => cases h
  | cons v ws ih =>
    simp only [List.map_cons, List.sum_cons]
    rcases List.mem_cons.1 h with h | h
    · subst h; omega
    · have := ih h; omega

theorem sum_zero_mem (f : Worker → Nat) (ws : List Worker) (h : (ws.map f).sum = 0)
    (w : Worker) (hw : w ∈ ws) : f w = 0 := by
  have := le_sum_map f ws w hw
  omega

theorem countP_call_le (ws : List Worker) :
    ws.countP (fun w => match w with | Worker.call _ _ => true | _ => false)
      ≤ (ws.map Worker.held).sum := by
  induction ws with
  | nil => simp
  | cons w ws ih =>
    cases w <;> simp [List.countP_cons, Worker.held] <;> omega

theorem mem_of_index {ws : List Worker} {i : Nat} {w : Worker} (h : ws[i]? = some w) :
    w ∈ ws := by
  obtain ⟨hi, heq⟩ := List.getElem?_eq_some_iff.1 h
  rw [← heq]; exact List.getElem_mem hi

theorem exists_index {ws : List Worker} {w : Worker} (h : w ∈ ws) : ∃ i : Nat, ws[i]? = some w := by
  obtain ⟨i, hi, heq⟩ := List.getElem_of_mem h
  exact ⟨i, by rw [List.getElem?_eq_getElem hi, heq]⟩

/-- A member of a list with one entry replaced is the new entry or a member of
the list with that entry replaced by anything else. -/
theorem mem_set_other {a b w : Worker} :
    ∀ {ws : List Worker} {i : Nat}, w ∈ ws.set i a → w = a ∨ w ∈ ws.set i b
  | [], _, h => by simp at h
  | v :: ws, 0, h => by
    simp only [List.set, List.mem_cons] at h ⊢
    rcases h with h | h
    · exact Or.inl h
    · exact Or.inr (Or.inr h)
  | v :: ws, i + 1, h => by
    simp only [List.set, List.mem_cons] at h ⊢
    rcases h with h | h
    · exact Or.inr (Or.inl h)
    · rcases mem_set_other h with h | h
      · exact Or.inl h
      · exact Or.inr (Or.inr h)

theorem mem_set_done {ws : List Worker} {i : Nat} {w1 : Worker} (hne : w1 ≠ Worker.done)
    (h : Worker.done ∈ ws.set i w1) : Worker.done ∈ ws := by
  rcases List.mem_or_eq_of_mem_set h with h | h
  · exact h
  · exact absurd h.symm hne

theorem opStep_next_ne_dial (b : Backend) (task : HostTask) (pc : Pc) (r : Remote) :
    (opStep b task pc r).next ≠ Next.goto Pc.dial := by
  intro h
  have := opStep_rank h
  cases pc <;> simp [Pc.rank] at this

theorem opStep_dials (b : Backend) (task : HostTask) (pc : Pc) (r : Remote) :
    (opStep b task pc r).calls.filter Call.isDial =
      if pc = Pc.dial then
        [Call.dial (task.Host ++ ":" ++ toString task.Port) task.User task.Password task.Timeout]
      else [] := by
  cases pc <;> simp only [opStep] <;> (repeat' split) <;> simp_all [Call.isDial]

theorem opStep_err_mem {b : Backend} {task : HostTask} {pc : Pc} {r : Remote} {m : String}
    (h : (opStep b task pc r).next = Next.ret (some m)) : m ∈ b.errors := by
  cases pc <;> simp only [opStep] at h <;> (repeat' split at h) <;>
    simp only [Next.ret.injEq, Option.some.injEq] at h <;>
    (try subst h) <;> simp_all [Backend.errors]

/-- The seven kinds of step, field by field. -/
theorem step_spec {cfg : Config} {s s' : Sched} {i : Nat} (h : step cfg i s = some s') :
    ∃ w0 w1, s.workers[i]? = some w0 ∧ s'.workers = s.workers.set i w1 ∧
      ((w0 = Worker.recv ∧ w1 = Worker.done ∧ s.tasks = [] ∧ s'.tasks = [] ∧
          s'.sem = s.sem ∧ s'.remotes = s.remotes ∧ s'.trace = s.trace ∧ s'.out = s.out) ∨
       (∃ a rest, w0 = Worker.recv ∧ w1 = Worker.acquire a ∧ s.tasks = a :: rest ∧
          s'.tasks = rest ∧
          s'.sem = s.sem ∧ s'.remotes = s.remotes ∧ s'.trace = s.trace ∧ s'.out = s.out) ∨
       (∃ a, w0 = Worker.acquire a ∧ w1 = Worker.call a Pc.dial ∧ s.sem < cfg.concurrency ∧
          s'.tasks = s.tasks ∧
          s'.sem = s.sem + 1 ∧ s'.remotes = s.remotes ∧ s'.trace = s.trace ∧
          s'.out = s.out) ∨
       (∃ a pc, w0 = Worker.call a pc ∧ cfg.blocked a pc = false ∧
          w1 = (match (opStep (cfg.net a) (hostTask cfg a) pc (s.remotes a)).next with
            | Next.goto pc' => Worker.call a pc'
            | Next.ret e => Worker.release a e) ∧
          s'.tasks = s.tasks ∧ s'.sem = s.sem ∧
          s'.remotes = Function.update s.remotes a
            (opStep (cfg.net a) (hostTask cfg a) pc (s.remotes a)).remote ∧
          s'.trace = s.trace ++
            (opStep (cfg.net a) (hostTask cfg a) pc (s.remotes a)).calls.map (fun c => (a, c)) ∧
          s'.out = s.out) ∨
       (∃ a e, w0 = Worker.release a e ∧ w1 = Worker.print a e ∧ 0 < s.sem ∧
          s'.tasks = s.tasks ∧
          s'.sem = s.sem - 1 ∧ s'.remotes = s.remotes ∧ s'.trace = s.trace ∧
          s'.out = s.out) ∨
       (∃ a e, w0 = Worker.print a e ∧ w1 = Worker.recv ∧ s'.tasks = s.tasks ∧
          s'.sem = s.sem ∧ s'.remotes = s.remotes ∧ s'.trace = s.trace ∧
          s'.out = s.out ++ [⟨a, e⟩])) := by
  unfold step at h
  cases hw : s.workers[i]? with
  | none => rw [hw] at h; cases h
  | some w =>
    rw [hw] at h
    cases w with
    | recv =>
      cases ht : s.tasks with
      | nil =>
        simp only [ht, Option.some.injEq] at h
        subst h
        exact ⟨_, Worker.done, rfl, rfl, Or.inl ⟨rfl, rfl, rfl, rfl, rfl, rfl, rfl, rfl⟩⟩
      | cons a rest =>
        simp only [ht, Option.some.injEq] at h
        subst h
        exact ⟨_, Worker.acquire a, rfl, rfl,
          Or.inr (Or.inl ⟨a, rest, rfl, rfl, rfl, rfl, rfl, rfl, rfl, rfl⟩)⟩
    | acquire a =>
      simp only at h
      split at h
      · rename_i hlt
        simp only [Option.some.injEq] at h
        subst h
        exact ⟨_, Worker.call a Pc.dial, rfl, rfl,
          Or.inr (Or.inr (Or.inl ⟨a, rfl, rfl, hlt, rfl, rfl, rfl, rfl, rfl⟩))⟩
      · cases h
    | call a pc =>
      simp only at h
      split at h
      · cases h
      · rename_i hb
        simp only [Option.some.injEq] at h
        subst h
        exact ⟨_, _, rfl, rfl,
          Or.inr (Or.inr (Or.inr (Or.inl ⟨a, pc, rfl, by simpa using hb, rfl, rfl, rfl, rfl,
            rfl, rfl⟩)))⟩
    | release a e =>
      simp only at h
      split at h
      · rename_i hlt
        simp only [Option.some.injEq] at h
        subst h
        exact ⟨_, Worker.print a e, rfl, rfl,
          Or.inr (Or.inr (Or.inr (Or.inr (Or.inl ⟨a, e, rfl, rfl, hlt, rfl, rfl, rfl, rfl, rfl⟩))))⟩
      · cases h
    | print a e =>
      simp only [Option.some.injEq] at h
      subst h
      exact ⟨_, Worker.recv, rfl, rfl,
        Or.inr (Or.inr (Or.inr (Or.inr (Or.inr ⟨a, e, rfl, rfl, rfl, rfl, rfl, rfl, rfl⟩))))⟩
    | done => cases h

theorem forall_set {P : Worker → Prop} {ws : List Worker} {i : Nat} {w1 : Worker}
    (h : ∀ w ∈ ws, P w) (h1 : P w1) : ∀ w ∈ ws.set i w1, P w := by
  intro w hw
  rcases List.mem_or_eq_of_mem_set hw with hw | hw
  · exact h w hw
  · rw [hw]; exact h1

theorem dialled_count_append (tr : List (String × Call)) (a x : String) (cs : List Call) :
    (((tr ++ cs.map (fun c => (a, c))).filter (fun p => p.2.isDial)).map Prod.fst).count x =
      ((tr.filter (fun p => p.2.isDial)).map Prod.fst).count x +
        (if a = x then (cs.filter Call.isDial).length else 0) := by
  rw [List.filter_append, List.map_append, List.count_append]
  congr 1
  induction cs with
  | nil => simp
  | cons c cs ih =>
    simp only [List.map_cons, List.filter_cons]
    cases hc : c.isDial
    · simpa using ih
    · simp only [if_true, List.map_cons, List.count_cons, List.length_cons, ih, beq_iff_eq]
      split <;> simp

theorem opStep_dial_length (b : Backend) (task : HostTask) (pc : Pc) (r : Remote) :
    ((opStep b task pc r).calls.filter Call.isDial).length = if pc = Pc.dial then 1 else 0 := by
  rw [opStep_dials]; split <;> rfl

theorem init_inv (cfg : Config) (hosts : List String) (ρ : String → Remote) :
    Inv cfg hosts (init cfg hosts ρ) := by
  have hz : ∀ f : Worker → Nat, f Worker.recv = 0 →
      ((List.replicate cfg.concurrency Worker.recv).map f).sum = 0 := by
    intro f hf
    apply sum_map_eq_zero
    intro w hw
    rw [List.eq_of_mem_replicate hw, hf]
  constructor
  · simp [init]
  · simpa [init] using hz Worker.held rfl
  · simp [init]
  · intro x
    have := hz (Worker.waitingN x) rfl
    simp only [init, dialled, this]; simp
  · intro x
    have := hz (Worker.acquiringN x) rfl
    have h2 := hz (Worker.startedN x) rfl
    simp only [init, this, h2]; simp
  · intro h
    simp only [init] at h
    cases List.eq_of_mem_replicate h
  · intro p hp; simp [init] at hp
  · intro w hw
    simp only [init] at hw
    rw [List.eq_of_mem_replicate hw]
    trivial
  · intro o ho; simp [init] at ho

theorem step_inv {cfg : Config} {hosts : List String} {s s' : Sched}
    {i : Nat} (hinv : Inv cfg hosts s) (h : step cfg i s = some s') : Inv cfg hosts s' := by
  obtain ⟨hlen, hsem, hcap, hdialed, hprinted, hclosed, hdialTask, hheld, hanswered⟩ := hinv
  obtain ⟨w0, w1, hw, hws, hcase⟩ := step_spec h
  have hS := fun (f : Worker → Nat) => sum_map_set f s.workers i w0 w1 hw
  have hH := hS Worker.held
  have hw0 := mem_of_index hw
  rcases hcase with ⟨rfl, rfl, ht, ht', hsem', hrem, htr, hout⟩ |
    ⟨a, rest, rfl, rfl, ht, ht', hsem', hrem, htr, hout⟩ |
    ⟨a, rfl, rfl, hlt, ht', hsem', hrem, htr, hout⟩ |
    ⟨a, pc, rfl, hnb, hw1, ht', hsem', hrem, htr, hout⟩ |
    ⟨a, e, rfl, rfl, hlt, ht', hsem', hrem, htr, hout⟩ |
    ⟨a, e, rfl, rfl, ht', hsem', hrem, htr, hout⟩
  · refine ⟨?_, ?_, ?_, ?_, ?_, ?_, ?_, ?_, ?_⟩
    · rw [hws]; simpa using hlen
    · rw [hws, hsem']; simp only [Worker.held] at hH; omega
    · rw [hsem']; omega
    · intro x
      have h1 := hS (Worker.waitingN x)
      have h2 := hdialed x
      simp only [dialled] at h2 ⊢
      rw [hws, ht', htr]
      simp only [Worker.waitingN, List.count_cons, List.count_nil, beq_iff_eq,
        if_true, ht] at h1 h2 ⊢
      omega
    · intro x
      have h1 := hS (Worker.acquiringN x)
      have h3 := hS (Worker.startedN x)
      have h2 := hprinted x
      rw [hws, ht', hout]
      simp only [Worker.acquiringN, Worker.startedN, List.count_cons, List.count_nil,
        List.count_append, List.map_append, List.map_cons, List.map_nil,
        List.count_singleton, beq_iff_eq, ht] at h1 h2 h3 ⊢
      omega
    · intro _; exact ht'
    · rw [htr]; exact hdialTask
    · rw [hws]; exact forall_set hheld trivial
    · rw [hout]; exact hanswered
  · refine ⟨?_, ?_, ?_, ?_, ?_, ?_, ?_, ?_, ?_⟩
    · rw [hws]; simpa using hlen
    · rw [hws, hsem']; simp only [Worker.held] at hH; omega
    · rw [hsem']; omega
    · intro x
      have h1 := hS (Worker.waitingN x)
      have h2 := hdialed x
      simp only [dialled] at h2 ⊢
      rw [hws, ht', htr]
      simp only [Worker.waitingN, List.count_cons, List.count_nil, beq_iff_eq,
        if_true, ht] at h1 h2 ⊢
      omega
    · intro x
      have h1 := hS (Worker.acquiringN x)
      have h3 := hS (Worker.startedN x)
      have h2 := hprinted x
      rw [hws, ht', hout]
      simp only [Worker.acquiringN, Worker.startedN, List.count_cons, List.count_nil,
        List.count_append, List.map_append, List.map_cons, List.map_nil,
        List.count_singleton, beq_iff_eq, ht] at h1 h2 h3 ⊢
      omega
    · intro hd
      rw [hws] at hd
      have := hclosed (mem_set_done (by simp) hd)
      rw [this] at ht; cases ht
    · rw [htr]; exact hdialTask
    · rw [hws]; exact forall_set hheld trivial
    · rw [hout]; exact hanswered
  · refine ⟨?_, ?_, ?_, ?_, ?_, ?_, ?_, ?_, ?_⟩
    · rw [hws]; simpa using hlen
    · rw [hws, hsem']; simp only [Worker.held] at hH; omega
    · rw [hsem']; omega
    · intro x
      have h1 := hS (Worker.waitingN x)
      have h2 := hdialed x
      simp only [dialled] at h2 ⊢
      rw [hws, ht', htr]
      simp only [Worker.waitingN, List.count_cons, List.count_nil, beq_iff_eq,
        if_true] at h1 h2 ⊢
      omega
    · intro x
      have h1 := hS (Worker.acquiringN x)
      have h3 := hS (Worker.startedN x)
      have h2 := hprinted x
      rw [hws, ht', hout]
      simp only [Worker.acquiringN, Worker.startedN, List.count_cons, List.count_nil,
        List.count_append, List.map_append, List.map_cons, List.map_nil,
        List.count_singleton, beq_iff_eq] at h1 h2 h3 ⊢
      omega
    · intro hd
      rw [hws] at hd
      rw [ht']
      exact hclosed (mem_set_done (by simp) hd)
    · rw [htr]; exact hdialTask
    · rw [hws]; exact forall_set hheld trivial
    · rw [hout]; exact hanswered
  · have hnd := opStep_next_ne_dial (cfg.net a) (hostTask cfg a) pc (s.remotes a)
    have hdl := opStep_dial_length (cfg.net a) (hostTask cfg a) pc (s.remotes a)
    have hw1N : Worker.held w1 = 1 ∧ (∀ x, Worker.waitingN x w1 = 0) ∧
        (∀ x, Worker.acquiringN x w1 = 0) ∧
        (∀ x, Worker.startedN x w1 = if a = x then 1 else 0) ∧ w1 ≠ Worker.done ∧
        w1.reports (fun h e => answeredBy (cfg.net h) e) := by
      cases hnx : (opStep (cfg.net a) (hostTask cfg a) pc (s.remotes a)).next with
      | goto pc' =>
        rw [hnx] at hw1 hnd
        subst hw1
        have hpc : pc' ≠ Pc.dial := fun hp => hnd (by rw [hp])
        refine ⟨rfl, ?_, fun _ => rfl, fun _ => rfl, by simp, trivial⟩
        intro x; simp [Worker.waitingN, hpc]
      | ret e =>
        rw [hnx] at hw1
        subst hw1
        refine ⟨rfl, fun _ => rfl, fun _ => rfl, fun _ => rfl, by simp, ?_⟩
        show answeredBy (cfg.net a) e
        cases e with
        | none => exact Or.inl rfl
        | some m => exact Or.inr ⟨m, opStep_err_mem hnx, rfl⟩
    obtain ⟨hwh, hww, hwa, hwst, hwd, hwr⟩ := hw1N
    refine ⟨?_, ?_, ?_, ?_, ?_, ?_, ?_, ?_, ?_⟩
    · rw [hws]; simpa using hlen
    · rw [hws, hsem']; rw [hwh] at hH; simp only [Worker.held] at hH; omega
    · rw [hsem']; omega
    · intro x
      have h1 := hS (Worker.waitingN x)
      have h2 := hdialed x
      simp only [dialled] at h2 ⊢
      rw [hws, ht', htr, dialled_count_append, hdl]
      rw [hww x] at h1
      simp only [Worker.waitingN] at h1
      by_cases hpc : pc = Pc.dial <;> by_cases hax : a = x <;>
        simp only [hpc, hax, if_true, if_false] at h1 ⊢ <;> omega
    · intro x
      have h1 := hS (Worker.acquiringN x)
      have h3 := hS (Worker.startedN x)
      have h2 := hprinted x
      rw [hws, ht', hout]
      rw [hwa x] at h1
      rw [hwst x] at h3
      simp only [Worker.acquiringN, Worker.startedN] at h1 h3
      omega
    · intro hd
      rw [hws] at hd
      rw [ht']
      exact hclosed (mem_set_done hwd hd)
    · rw [htr]
      intro p hp hpd
      rcases List.mem_append.1 hp with hp | hp
      · exact hdialTask p hp hpd
      · obtain ⟨c, hc, rfl⟩ := List.mem_map.1 hp
        have hcf : c ∈ (opStep (cfg.net a) (hostTask cfg a) pc (s.remotes a)).calls.filter
            Call.isDial := List.mem_filter.2 ⟨hc, hpd⟩
        rw [opStep_dials] at hcf
        split at hcf
        · rw [List.mem_singleton.1 hcf]; rfl
        · cases hcf
    · rw [hws]; exact forall_set hheld hwr
    · rw [hout]; exact hanswered
  · refine ⟨?_, ?_, ?_, ?_, ?_, ?_, ?_, ?_, ?_⟩
    · rw [hws]; simpa using hlen
    · rw [hws, hsem']; simp only [Worker.held] at hH; omega
    · rw [hsem']; omega
    · intro x
      have h1 := hS (Worker.waitingN x)
      have h2 := hdialed x
      simp only [dialled] at h2 ⊢
      rw [hws, ht', htr]
      simp only [Worker.waitingN, List.count_cons, List.count_nil, beq_iff_eq,
        if_true] at h1 h2 ⊢
      omega
    · intro x
      have h1 := hS (Worker.acquiringN x)
      have h3 := hS (Worker.startedN x)
      have h2 := hprinted x
      rw [hws, ht', hout]
      simp only [Worker.acquiringN, Worker.startedN, List.count_cons, List.count_nil,
        List.count_append, List.map_append, List.map_cons, List.map_nil,
        List.count_singleton, beq_iff_eq] at h1 h2 h3 ⊢
      omega
    · intro hd
      rw [hws] at hd
      rw [ht']
      exact hclosed (mem_set_done (by simp) hd)
    · rw [htr]; exact hdialTask
    · rw [hws]; exact forall_set hheld (hheld (Worker.release a e) hw0)
    · rw [hout]; exact hanswered
  · refine ⟨?_, ?_, ?_, ?_, ?_, ?_, ?_, ?_, ?_⟩
    · rw [hws]; simpa using hlen
    · rw [hws, hsem']; simp only [Worker.held] at hH; omega
    · rw [hsem']; omega
    · intro x
      have h1 := hS (Worker.waitingN x)
      have h2 := hdialed x
      simp only [dialled] at h2 ⊢
      rw [hws, ht', htr]
      simp only [Worker.waitingN, List.count_cons, List.count_nil, beq_iff_eq,
        if_true] at h1 h2 ⊢
      omega
    · intro x
      have h1 := hS (Worker.acquiringN x)
      have h3 := hS (Worker.startedN x)
      have h2 := hprinted x
      rw [hws, ht', hout]
      simp only [Worker.acquiringN, Worker.startedN, List.count_cons, List.count_nil,
        List.count_append, List.map_append, List.map_cons, List.map_nil,
        List.count_singleton, beq_iff_eq] at h1 h2 h3 ⊢
      omega
    · intro hd
      rw [hws] at hd
      rw [ht']
      exact hclosed (mem_set_done (by simp) hd)
    · rw [htr]; exact hdialTask
    · rw [hws]; exact forall_set hheld trivial
    · rw [hout]
      intro o ho
      rcases List.mem_append.1 ho with ho | ho
      · exact hanswered o ho
      · rw [List.mem_singleton.1 ho]; exact hheld (Worker.print a e) hw0

theorem startedN_zero_reports {x : String} {w : Worker} (Q : Option String → Prop)
    (h : Worker.startedN x w = 0) : w.reports (fun a e => a = x → Q e) := by
  cases w <;> simp only [Worker.reports, Worker.startedN] at h ⊢ <;>
    · intro hax
      rw [if_pos hax] at h
      cases h

theorem startedN_zero_not_call {x : String} {w : Worker} (h : Worker.startedN x w = 0)
    (pc : Pc) : w ≠ Worker.call x pc := by
  intro hw
  rw [hw] at h
  simp [Worker.startedN] at h

/-- When the started entries of `x` among the workers are no more than the one
of worker `i`, no other worker has started `x`. -/
theorem others_not_started {x : String} {ws : List Worker} {i : Nat} {w0 : Worker}
    (hw : ws[i]? = some w0) (hle : (ws.map (Worker.startedN x)).sum ≤ Worker.startedN x w0) :
    ∀ w ∈ ws.set i Worker.done, Worker.startedN x w = 0 := by
  have h := sum_map_set (Worker.startedN x) ws i w0 Worker.done hw
  have hd : Worker.startedN x Worker.done = 0 := rfl
  rw [hd] at h
  apply sum_zero_mem
  omega

theorem not_mem_out (x : String) (out : List Outcome)
    (h : (out.map Outcome.host).count x = 0) : ∀ o ∈ out, o.host ≠ x := by
  intro o ho hox
  have : x ∈ out.map Outcome.host := List.mem_map.2 ⟨o, ho, hox⟩
  have := List.count_pos_iff.2 this
  omega

theorem init_once (cfg : Config) (hosts : List String) (ρ : String → Remote) (x : String) :
    Once cfg ρ x (init cfg hosts ρ) := by
  constructor
  · intro w hw pc hc
    simp only [init] at hw
    rw [List.eq_of_mem_replicate hw] at hc
    cases hc
  · intro w hw
    simp only [init] at hw
    rw [List.eq_of_mem_replicate hw]
    trivial
  · intro o ho; simp [init] at ho
  · intro _ _; rfl

theorem step_once {cfg : Config} {hosts : List String} {ρ : String → Remote} {x : String}
    {s s' : Sched} {i : Nat} (hcount : hosts.count x = 1) (hinv : Inv cfg hosts s)
    (honce : Once cfg ρ x s) (h : step cfg i s = some s') : Once cfg ρ x s' := by
  obtain ⟨hrun, hrep, hpr, hfresh⟩ := honce
  have hprinted := hinv.printed x
  rw [hcount] at hprinted
  obtain ⟨w0, w1, hw, hws, hcase⟩ := step_spec h
  have hS := sum_map_set (Worker.startedN x) s.workers i w0 w1 hw
  have hA := le_sum_map (Worker.acquiringN x) s.workers w0 (mem_of_index hw)
  have hB := le_sum_map (Worker.startedN x) s.workers w0 (mem_of_index hw)
  have hw0 := mem_of_index hw
  rcases hcase with ⟨rfl, rfl, ht, ht', hsem', hrem, htr, hout⟩ |
    ⟨a, rest, rfl, rfl, ht, ht', hsem', hrem, htr, hout⟩ |
    ⟨a, rfl, rfl, hlt, ht', hsem', hrem, htr, hout⟩ |
    ⟨a, pc, rfl, hnb, hw1, ht', hsem', hrem, htr, hout⟩ |
    ⟨a, e, rfl, rfl, hlt, ht', hsem', hrem, htr, hout⟩ |
    ⟨a, e, rfl, rfl, ht', hsem', hrem, htr, hout⟩
  · -- receive on the empty queue
    simp only [Worker.startedN] at hS
    refine ⟨?_, ?_, ?_, ?_⟩
    · rw [hws, hrem]
      exact forall_set (P := fun w => ∀ pc, w = Worker.call x pc → _) hrun
        (fun pc hc => by cases hc)
    · rw [hws, hrem]; exact forall_set hrep trivial
    · rw [hout, hrem]; exact hpr
    · rw [hws, hout, hrem]
      intro h1 h2
      exact hfresh (by omega) h2
  · -- receive a host
    simp only [Worker.startedN] at hS
    refine ⟨?_, ?_, ?_, ?_⟩
    · rw [hws, hrem]
      exact forall_set (P := fun w => ∀ pc, w = Worker.call x pc → _) hrun
        (fun pc hc => by cases hc)
    · rw [hws, hrem]; exact forall_set hrep trivial
    · rw [hout, hrem]; exact hpr
    · rw [hws, hout, hrem]
      intro h1 h2
      exact hfresh (by omega) h2
  · -- take a semaphore slot and enter the installer
    refine ⟨?_, ?_, ?_, ?_⟩
    · rw [hws, hrem]
      refine forall_set (P := fun w => ∀ pc, w = Worker.call x pc → _) hrun ?_
      intro pc hc
      simp only [Worker.call.injEq] at hc
      obtain ⟨hax, hpc⟩ := hc
      subst hax hpc
      simp [Worker.acquiringN] at hA
      have hf := hfresh (by omega) (by omega)
      rw [runFrom_dial, hf]
      exact ⟨rfl, rfl⟩
    · rw [hws, hrem]; exact forall_set hrep trivial
    · rw [hout, hrem]; exact hpr
    · rw [hws, hout, hrem]
      intro h1 h2
      have e0 : Worker.startedN x (Worker.acquire a) = 0 := rfl
      have e1 : Worker.startedN x (Worker.call a Pc.dial) = if a = x then 1 else 0 := rfl
      rw [e0, e1] at hS
      by_cases hax : a = x
      · rw [if_pos hax] at hS; omega
      · rw [if_neg hax] at hS
        exact hfresh (by omega) h2
  · -- one remote operation of a call
    by_cases hax : a = x
    · subst hax
      simp [Worker.startedN] at hB
      have hothers := others_not_started (x := a) hw
        (by simp [Worker.startedN]; omega)
      have hnoout := not_mem_out a s.out (by omega)
      have hold := hrun _ hw0 pc rfl
      refine ⟨?_, ?_, ?_, ?_⟩
      · rw [hws, hrem]
        intro w hwm pc' hc
        rcases mem_set_other (b := Worker.done) hwm with hwm | hwm
        · rw [hwm] at hc
          cases hnx : (opStep (cfg.net a) (hostTask cfg a) pc (s.remotes a)).next with
          | goto pc'' =>
            rw [hw1, hnx] at hc
            simp only [Worker.call.injEq, true_and] at hc
            subst hc
            have := runFrom_goto hnx
            simp only [Function.update_same]
            exact ⟨this.1.symm.trans hold.1, this.2.symm.trans hold.2⟩
          | ret e =>
            rw [hw1, hnx] at hc
            cases hc
        · exact absurd hc (startedN_zero_not_call (hothers w hwm) pc')
      · rw [hws, hrem]
        intro w hwm
        rcases mem_set_other (b := Worker.done) hwm with hwm | hwm
        · rw [hwm, hw1]
          cases hnx : (opStep (cfg.net a) (hostTask cfg a) pc (s.remotes a)).next with
          | goto pc'' => trivial
          | ret e =>
            have := runFrom_ret hnx
            intro _
            simp only [Function.update_same]
            exact ⟨this.1.symm.trans hold.1, this.2.symm.trans hold.2⟩
        · exact startedN_zero_reports _ (hothers w hwm)
      · rw [hout]
        intro o ho hox
        exact absurd hox (hnoout o ho)
      · rw [hws, hout]
        intro h1 _
        have hw1s : Worker.startedN a w1 = 1 := by
          rw [hw1]
          cases (opStep (cfg.net a) (hostTask cfg a) pc (s.remotes a)).next <;>
            simp [Worker.startedN]
        have e1 : Worker.startedN a (Worker.call a pc) = 1 := by simp [Worker.startedN]
        rw [e1] at hS
        omega
    · have hw1s : Worker.startedN x w1 = 0 ∧ (∀ pc', w1 ≠ Worker.call x pc') ∧
          w1.reports (fun h e => h = x →
            e = (copyKeyToHost (cfg.net x) (hostTask cfg x) (ρ x)).err ∧
            s.remotes x = (copyKeyToHost (cfg.net x) (hostTask cfg x) (ρ x)).remote) := by
        rw [hw1]
        cases (opStep (cfg.net a) (hostTask cfg a) pc (s.remotes a)).next with
        | goto pc'' =>
          dsimp only
          refine ⟨by simp [Worker.startedN, hax], ?_, trivial⟩
          intro pc' hc
          simp only [Worker.call.injEq] at hc
          exact hax hc.1
        | ret e =>
          dsimp only
          refine ⟨by simp [Worker.startedN, hax], ?_, ?_⟩
          · intro pc' hc; cases hc
          · intro hh
            exact absurd hh hax
      have hremx : s'.remotes x = s.remotes x := by
        rw [hrem, Function.update_noteq (Ne.symm hax)]
      simp only [Worker.startedN, if_neg hax] at hS
      refine ⟨?_, ?_, ?_, ?_⟩
      · rw [hws, hremx]
        exact forall_set (P := fun w => ∀ pc, w = Worker.call x pc → _) hrun
          (fun pc' hc => absurd hc (hw1s.2.1 pc'))
      · rw [hws, hremx]; exact forall_set hrep hw1s.2.2
      · rw [hout, hremx]; exact hpr
      · rw [hws, hout, hremx]
        intro h1 h2
        exact hfresh (by omega) h2
  · -- give the semaphore slot back
    have hold := hrep _ hw0
    simp only [Worker.startedN] at hS
    refine ⟨?_, ?_, ?_, ?_⟩
    · rw [hws, hrem]
      exact forall_set (P := fun w => ∀ pc, w = Worker.call x pc → _) hrun
        (fun pc hc => by cases hc)
    · rw [hws, hrem]; exact forall_set hrep hold
    · rw [hout, hrem]; exact hpr
    · rw [hws, hout, hrem]
      intro h1 h2
      exact hfresh (by omega) h2
  · -- print the outcome
    have hold := hrep _ hw0
    simp only [Worker.startedN] at hS hB
    refine ⟨?_, ?_, ?_, ?_⟩
    · rw [hws, hrem]
      exact forall_set (P := fun w => ∀ pc, w = Worker.call x pc → _) hrun
        (fun pc hc => by cases hc)
    · rw [hws, hrem]; exact forall_set hrep trivial
    · rw [hout, hrem]
      intro o ho hox
      rcases List.mem_append.1 ho with ho | ho
      · exact hpr o ho hox
      · rw [List.mem_singleton.1 ho] at hox ⊢
        exact hold hox
    · rw [hws, hout, hrem]
      intro h1 h2
      by_cases hax : a = x
      · simp [hax] at h2
      · simp only [hax, if_false] at hS
        have hle : (s.out.map Outcome.host).count x
            ≤ ((s.out ++ [Outcome.mk a e]).map Outcome.host).count x := by
          simp [List.count_append]
        exact hfresh (by omega) (by omega)

theorem exec_inv {cfg : Config} {hosts : List String} :
    ∀ (sched : List Nat) (s s' : Sched), Inv cfg hosts s → exec cfg sched s = some s' →
      Inv cfg hosts s'
  | [], s, s', hinv, h => by
    simp only [exec, Option.some.injEq] at h
    subst h; exact hinv
  | i :: sched, s, s', hinv, h => by
    simp only [exec] at h
    cases hs : step cfg i s with
    | none => rw [hs] at h; cases h
    | some s1 =>
      rw [hs] at h
      exact exec_inv sched s1 s' (step_inv hinv hs) h

theorem exec_once {cfg : Config} {hosts : List String} {ρ : String → Remote} {x : String}
    (hcount : hosts.count x = 1) :
    ∀ (sched : List Nat) (s s' : Sched), Inv cfg hosts s → Once cfg ρ x s →
      exec cfg sched s = some s' → Once cfg ρ x s'
  | [], s, s', _, honce, h => by
    simp only [exec, Option.some.injEq] at h
    subst h; exact honce
  | i :: sched, s, s', hinv, honce, h => by
    simp only [exec] at h
    cases hs : step cfg i s with
    | none => rw [hs] at h; cases h
    | some s1 =>
      rw [hs] at h
      exact exec_once hcount sched s1 s' (step_inv hinv hs) (step_once hcount hinv honce hs) h

theorem reach_inv {cfg : Config} {hosts : List String} {ρ : String → Remote}
    {sched : List Nat} {s : Sched} (h : exec cfg sched (init cfg hosts ρ) = some s) :
    Inv cfg hosts s :=
  exec_inv sched _ s (init_inv cfg hosts ρ) h

theorem reach_once {cfg : Config} {hosts : List String} {ρ : String → Remote} {x : String}
    {sched : List Nat} {s : Sched} (hcount : hosts.count x = 1)
    (h : exec cfg sched (init cfg hosts ρ) = some s) : Once cfg ρ x s :=
  exec_once hcount sched _ s (init_inv cfg hosts ρ) (init_once cfg hosts ρ x) h

theorem rank_pos (pc : Pc) : 1 ≤ pc.rank := by
  cases pc <;> simp [Pc.rank]

/-- Every step takes at least one unit off `stepsLeft`. -/
theorem step_stepsLeft {cfg : Config} {s s' : Sched} {i : Nat} (h : step cfg i s = some s') :
    stepsLeft s' + 1 ≤ stepsLeft s := by
  obtain ⟨w0, w1, hw, hws, hcase⟩ := step_spec h
  have hS := sum_map_set Worker.weight s.workers i w0 w1 hw
  rcases hcase with ⟨rfl, rfl, ht, ht', -⟩ | ⟨a, rest, rfl, rfl, ht, ht', -⟩ |
    ⟨a, rfl, rfl, -, ht', -⟩ | ⟨a, pc, rfl, -, hw1, ht', -⟩ | ⟨a, e, rfl, rfl, -, ht', -⟩ |
    ⟨a, e, rfl, rfl, ht', -⟩
  · simp only [stepsLeft, hws, ht', ht, List.length_nil, Worker.weight] at hS ⊢
    omega
  · simp only [stepsLeft, hws, ht', Worker.weight] at hS ⊢
    rw [ht]; simp only [List.length_cons]; omega
  · simp only [stepsLeft, hws, ht', Worker.weight, Pc.rank] at hS ⊢
    omega
  · have hw1w : Worker.weight w1 + 1 ≤ 3 + pc.rank := by
      rw [hw1]
      cases hnx : (opStep (cfg.net a) (hostTask cfg a) pc (s.remotes a)).next with
      | goto pc' =>
        have := opStep_rank hnx
        simp only [Worker.weight]; omega
      | ret e =>
        have := rank_pos pc
        simp only [Worker.weight]; omega
    have e0 : Worker.weight (Worker.call a pc) = 3 + pc.rank := rfl
    rw [e0] at hS
    simp only [stepsLeft, hws, ht']
    omega
  · simp only [stepsLeft, hws, ht', Worker.weight] at hS ⊢
    omega
  · simp only [stepsLeft, hws, ht', Worker.weight] at hS ⊢
    omega

theorem exec_stepsLeft {cfg : Config} :
    ∀ (sched : List Nat) (s s' : Sched), exec cfg sched s = some s' →
      sched.length + stepsLeft s' ≤ stepsLeft s
  | [], s, s', h => by
    simp only [exec, Option.some.injEq] at h
    subst h; simp
  | i :: sched, s, s', h => by
    simp only [exec] at h
    cases hs : step cfg i s with
    | none => rw [hs] at h; cases h
    | some s1 =>
      rw [hs] at h
      have h1 := exec_stepsLeft sched s1 s' h
      have h2 := step_stepsLeft hs
      simp only [List.length_cons]
      omega

theorem stepsLeft_init (cfg : Config) (hosts : List String) (ρ : String → Remote) :
    stepsLeft (init cfg hosts ρ) = 13 * hosts.length + cfg.concurrency := by
  simp [stepsLeft, init, Worker.weight]

/-- No deadlock: in a state that satisfies the invariant, when no remote
operation on a queued host blocks, either all workers are done or some worker
can step. -/
theorem progress {cfg : Config} {hosts : List String} {s : Sched}
    (hinv : Inv cfg hosts s) (hret : ∀ x ∈ hosts, ∀ pc, cfg.blocked x pc = false)
    (hnt : terminal s = false) : ∃ i, (step cfg i s).isSome = true := by
  have hex : ∃ w ∈ s.workers, w ≠ Worker.done := by
    by_contra hno
    have : terminal s = true := by
      simp only [terminal, List.all_eq_true, decide_eq_true_eq]
      intro w hw
      by_contra hne
      exact hno ⟨w, hw, hne⟩
    rw [this] at hnt; cases hnt
  by_cases hheld : ∃ w ∈ s.workers, Worker.held w = 1
  · obtain ⟨w, hw, hh⟩ := hheld
    obtain ⟨i, hi⟩ := exists_index hw
    refine ⟨i, ?_⟩
    have hpos : 0 < s.sem := by
      have := le_sum_map Worker.held s.workers w hw
      rw [hinv.sem] at this
      omega
    cases w with
    | call a pc =>
      have hmem : a ∈ hosts := by
        have h1 := le_sum_map (Worker.startedN a) s.workers _ hw
        have h2 := hinv.printed a
        simp [Worker.startedN] at h1
        exact List.count_pos_iff.1 (by omega)
      simp [step, hi, hret a hmem pc]
    | release a e => simp [step, hi, hpos]
    | recv => simp [Worker.held] at hh
    | acquire a => simp [Worker.held] at hh
    | print a e => simp [Worker.held] at hh
    | done => simp [Worker.held] at hh
  · obtain ⟨w, hw, hne⟩ := hex
    obtain ⟨i, hi⟩ := exists_index hw
    refine ⟨i, ?_⟩
    have hz : (s.workers.map Worker.held).sum = 0 := by
      apply sum_map_eq_zero
      intro v hv
      by_contra hv0
      apply hheld
      refine ⟨v, hv, ?_⟩
      cases v <;> simp [Worker.held] at hv0 ⊢
    have hsem0 : s.sem = 0 := by rw [← hinv.sem, hz]
    have hC : 0 < cfg.concurrency := by
      rw [← hinv.len]
      exact List.length_pos_of_mem hw
    cases w with
    | recv => cases ht : s.tasks <;> simp [step, hi, ht]
    | acquire a => simp [step, hi, hsem0, hC]
    | call a pc => exact absurd ⟨_, hw, rfl⟩ hheld
    | release a e => exact absurd ⟨_, hw, rfl⟩ hheld
    | print a e => simp [step, hi]
    | done => exact absurd rfl hne

/-- When no remote operation on a queued host blocks, the scheduler can always
run on until `wg.Wait()` returns. -/
theorem can_finish {cfg : Config} {hosts : List String}
    (hret : ∀ x ∈ hosts, ∀ pc, cfg.blocked x pc = false) :
    ∀ (n : Nat) (s : Sched), stepsLeft s ≤ n → Inv cfg hosts s →
      ∃ sched s', exec cfg sched s = some s' ∧ terminal s' = true
  | n, s, hn, hinv => by
    cases ht : terminal s with
    | true => exact ⟨[], s, rfl, ht⟩
    | false =>
      obtain ⟨i, hi⟩ := progress hinv hret ht
      cases hs : step cfg i s with
      | none => rw [hs] at hi; cases hi
      | some s1 =>
        have hdec := step_stepsLeft hs
        cases n with
        | zero => omega
        | succ n =>
          obtain ⟨sched, s', he, hte⟩ := can_finish hret n s1 (by omega) (step_inv hinv hs)
          exact ⟨i :: sched, s', by simp [exec, hs, he], hte⟩

theorem terminal_sum_zero {s : Sched} (ht : terminal s = true) (f : Worker → Nat)
    (hf : f Worker.done = 0) : (s.workers.map f).sum = 0 := by
  apply sum_map_eq_zero
  intro w hw
  simp only [terminal, List.all_eq_true, decide_eq_true_eq] at ht
  rw [ht w hw, hf]

theorem terminal_tasks {cfg : Config} {hosts : List String} {s : Sched}
    (hinv : Inv cfg hosts s) (hC : 1 ≤ cfg.concurrency) (ht : terminal s = true) :
    s.tasks = [] := by
  apply hinv.closed
  have hlen := hinv.len
  cases hws : s.workers with
  | nil => rw [hws] at hlen; simp at hlen; omega
  | cons w ws =>
    simp only [terminal, List.all_eq_true, decide_eq_true_eq] at ht
    have := ht w (by rw [hws]; exact List.mem_cons_self _ _)
    rw [this]; exact List.mem_cons_self _ _

theorem scheduler_hosts {cfg : Config} {hosts : List String} {s : Sched}
    (hinv : Inv cfg hosts s) (hC : 1 ≤ cfg.concurrency) (ht : terminal s = true) :
    (s.out.map Outcome.host).Perm hosts := by
  have htasks := terminal_tasks hinv hC ht
  rw [List.perm_iff_count]
  intro x
  have h1 := hinv.printed x
  rw [htasks, terminal_sum_zero ht (Worker.acquiringN x) rfl,
    terminal_sum_zero ht (Worker.startedN x) rfl] at h1
  simpa using h1

theorem scheduler_dialled {cfg : Config} {hosts : List String} {s : Sched}
    (hinv : Inv cfg hosts s) (hC : 1 ≤ cfg.concurrency) (ht : terminal s = true) :
    (dialled s).Perm hosts := by
  have htasks := terminal_tasks hinv hC ht
  rw [List.perm_iff_count]
  intro x
  have h1 := hinv.dialed x
  rw [htasks, terminal_sum_zero ht (Worker.waitingN x) rfl] at h1
  simpa using h1

theorem filter_host_length (x : String) (out : List Outcome) :
    (out.filter (fun o => decide (o.host = x))).length = (out.map Outcome.host).count x := by
  induction out with
  | nil => rfl
  | cons o out ih =>
    by_cases h : o.host = x
    · simp [List.filter_cons, h, ih]
    · simp [List.filter_cons, h, ih, List.count_cons]

theorem eq_singleton_of_forall {l : List Outcome} {c : Outcome} (hlen : l.length = 1)
    (hall : ∀ o ∈ l, o = c) : l = [c] := by
  cases l with
  | nil => simp at hlen
  | cons a l =>
    cases l with
    | nil => rw [hall a (List.mem_cons_self _ _)]
    | cons b l => simp at hlen

/-- The calls of a host that is queued twice interleave on its account: served
one after the other, the second call finds the key and succeeds; when both
read the file before either writes, both append and both fail at the sync. -/
theorem duplicate_host_calls_interleave :
    exec cfgRace schedSeq (init cfgRace ["h1", "h1"] remotesW) = some seqEnd ∧
    terminal seqEnd = true ∧
    seqEnd.out = [⟨"h1", some "failed to write public key to remote disk: no fsync"⟩,
      ⟨"h1", none⟩] ∧
    (seqEnd.remotes "h1").content = [97, 98, 10] ∧
    exec cfgRace schedRace (init cfgRace ["h1", "h1"] remotesW) = some raceEnd ∧
    terminal raceEnd = true ∧
    raceEnd.out = [⟨"h1", some "failed to write public key to remote disk: no fsync"⟩,
      ⟨"h1", some "failed to write public key to remote disk: no fsync"⟩] ∧
    (raceEnd.remotes "h1").content = [97, 98, 10, 97, 98, 10] :=
  ⟨rfl, by decide, by decide, by decide, rfl, by decide, by decide, by decide⟩

/-- C5, as stated, fails: with one worker and the one host `h1`, which accepts
the session and never answers the read, the scheduler reaches a state in which
the worker is inside `copyKeyToHost`, no worker can step, `wg.Wait()` has not
returned and no outcome line is printed. -/
theorem blocked_call_never_terminates :
    exec cfgStuck schedStuck (init cfgStuck ["h1"] remotesW) = some stuckW ∧
    stuckW.workers = [Worker.call "h1" Pc.readAll] ∧
    terminal stuckW = false ∧
    (∀ i, step cfgStuck i stuckW = none) ∧
    stuckW.out = [] := by
  have hw : stuckW.workers = [Worker.call "h1" Pc.readAll] := by decide
  refine ⟨rfl, hw, by decide, ?_, by decide⟩
  intro i
  cases i with
  | zero => rfl
  | succ n => simp [step, hw]

/-- When `wg.Wait()` has returned, a host that is queued once has one outcome,
the result of `copyKeyToHost` on its own backend and its own account, and its
account is as `copyKeyToHost` leaves it. -/
theorem terminal_once {cfg : Config} {hosts : List String} {ρ : String → Remote} {s : Sched}
    {sched : List Nat} (hC : 1 ≤ cfg.concurrency)
    (h : exec cfg sched (init cfg hosts ρ) = some s) (ht : terminal s = true)
    (x : String) (hcount : hosts.count x = 1) :
    s.out.filter (fun o => decide (o.host = x))
      = [⟨x, (copyKeyToHost (cfg.net x) (hostTask cfg x) (ρ x)).err⟩] ∧
    s.remotes x = (copyKeyToHost (cfg.net x) (hostTask cfg x) (ρ x)).remote := by
  have hinv := reach_inv h
  have honce := reach_once (x := x) hcount h
  have hp := scheduler_hosts hinv hC ht
  have hlen : (s.out.filter (fun o => decide (o.host = x))).length = 1 := by
    rw [filter_host_length, hp.count_eq, hcount]
  have hall : ∀ o ∈ s.out.filter (fun o => decide (o.host = x)),
      o = ⟨x, (copyKeyToHost (cfg.net x) (hostTask cfg x) (ρ x)).err⟩ := by
    intro o ho
    obtain ⟨ho1, ho2⟩ := List.mem_filter.1 ho
    have hox : o.host = x := by simpa using ho2
    have := (honce.printedOnce o ho1 hox).1
    cases o
    simp only at hox this
    rw [hox, this]
  have hsingle := eq_singleton_of_forall hlen hall
  refine ⟨hsingle, ?_⟩
  have hmem : (⟨x, (copyKeyToHost (cfg.net x) (hostTask cfg x) (ρ x)).err⟩ : Outcome)
      ∈ s.out.filter (fun o => decide (o.host = x)) := by
    rw [hsingle]; exact List.mem_singleton.2 rfl
  exact (honce.printedOnce _ (List.mem_filter.1 hmem).1 rfl).2

/-- C5, amended: for every queue `hosts` of length N, every concurrency C ≥ 1
and every interleaving `sched` of the workers that leads from the initial state
to `s`: the interleaving has at most `13 * N + C` steps; `copyKeyToHost` is
never invoked more often on a host than the host is queued, and every dial
carries the task built for its host; never more outcomes are printed than
hosts are queued, and each is success or an error answered by its host.
When no remote operation on a queued host blocks for ever: as long as some
worker is not done some worker can step, and the scheduler can run on until
`wg.Wait()` returns.  When `wg.Wait()` has returned, `copyKeyToHost` has been
invoked (has dialled) exactly once per queued entry, N outcome lines have been
printed, the hosts of the outcomes are the queued hosts, as multisets, and the
outcome of a host that is queued once is what `copyKeyToHost` returns on its
backend and account. -/
theorem scheduler_complete (cfg : Config) (hosts : List String) (ρ : String → Remote)
    (sched : List Nat) (s : Sched) (hC : 1 ≤ cfg.concurrency)
    (h : exec cfg sched (init cfg hosts ρ) = some s) :
    sched.length + stepsLeft s ≤ 13 * hosts.length + cfg.concurrency ∧
    (∀ x, (dialled s).count x ≤ hosts.count x) ∧
    (∀ p ∈ s.trace, p.2.isDial = true → p.2 = dialCall cfg p.1) ∧
    (∀ x, (s.out.map Outcome.host).count x ≤ hosts.count x) ∧
    (∀ o ∈ s.out, answeredBy (cfg.net o.host) o.err) ∧
    ((∀ x ∈ hosts, ∀ pc, cfg.blocked x pc = false) →
      (terminal s = false → ∃ i, (step cfg i s).isSome = true) ∧
      ∃ sched' s', exec cfg sched' s = some s' ∧ terminal s' = true) ∧
    (terminal s = true →
      (dialled s).Perm hosts ∧ (s.out.map Outcome.host).Perm hosts ∧
      (s.out.map Outcome.line).length = hosts.length ∧
      ∀ x, hosts.count x = 1 →
        s.out.filter (fun o => decide (o.host = x))
          = [⟨x, (copyKeyToHost (cfg.net x) (hostTask cfg x) (ρ x)).err⟩]) := by
  have hinv := reach_inv h
  have hsteps := exec_stepsLeft sched _ s h
  rw [stepsLeft_init] at hsteps
  refine ⟨hsteps, ?_, hinv.dialTask, ?_, hinv.answered, ?_, ?_⟩
  · intro x
    have := hinv.dialed x
    omega
  · intro x
    have := hinv.printed x
    omega
  · intro hret
    exact ⟨progress hinv hret, can_finish hret (stepsLeft s) s (Nat.le_refl _) hinv⟩
  · intro ht
    have hp := scheduler_hosts hinv hC ht
    refine ⟨scheduler_dialled hinv hC ht, hp, ?_, fun x hx => (terminal_once hC h ht x hx).1⟩
    have := hp.length_eq
    simpa using this

theorem scheduler_complete_witness :
    terminal finalW = true ∧
    dialled finalW = ["h2", "h1", "h3"] ∧
    (terminal midW = false → ∃ i, (step cfgW i midW).isSome = true) ∧
    (∃ sched' s', exec cfgW sched' midW = some s' ∧ terminal s' = true) ∧
    (dialled finalW).Perm ["h1", "h2", "h3"] ∧
    (finalW.out.map Outcome.host).Perm ["h1", "h2", "h3"] ∧
    (finalW.out.map Outcome.line).length = 3 ∧
    ∀ x, ["h1", "h2", "h3"].count x = 1 →
      finalW.out.filter (fun o => decide (o.host = x))
        = [⟨x, (copyKeyToHost (cfgW.net x) (hostTask cfgW x) (remotesW x)).err⟩] :=
  ⟨by decide, by decide,
    ((scheduler_complete cfgW ["h1", "h2", "h3"] remotesW (schedW.take 4) midW (by decide)
      rfl).2.2.2.2.2.1 (fun _ _ _ => rfl)).1,
    ((scheduler_complete cfgW ["h1", "h2", "h3"] remotesW (schedW.take 4) midW (by decide)
      rfl).2.2.2.2.2.1 (fun _ _ _ => rfl)).2,
    ((scheduler_complete cfgW ["h1", "h2", "h3"] remotesW schedW finalW (by decide)
      rfl).2.2.2.2.2.2 (by decide))⟩

/-- C6: in every state the worker pool reaches, for every concurrency limit and
every queue, the number of installer calls in flight is at most the limit: the
tokens in `sem` are exactly the workers between their `sem <-` and their
`<-sem`, whatever the call returned, and `sem` never holds more than
`concurrency` tokens. -/
theorem bounded_concurrency (cfg : Config) (hosts : List String) (ρ : String → Remote)
    (sched : List Nat) (s : Sched) (h : exec cfg sched (init cfg hosts ρ) = some s) :
    inFlight s ≤ cfg.concurrency ∧
    inFlight s ≤ s.sem ∧
    (s.workers.map Worker.held).sum = s.sem ∧
    s.sem ≤ cfg.concurrency := by
  have hinv := reach_inv h
  have h1 : inFlight s ≤ s.sem := by
    rw [← hinv.sem]; exact countP_call_le s.workers
  exact ⟨Nat.le_trans h1 hinv.cap, h1, hinv.sem, hinv.cap⟩

theorem bounded_concurrency_witness :
    inFlight midW = 2 ∧ inFlight midW ≤ cfgW.concurrency :=
  ⟨by decide,
    (bounded_concurrency cfgW ["h1", "h2", "h3"] remotesW (schedW.take 4) midW rfl).1⟩

end SshCopyId
